import Mathlib

/-!
Verification development for the clair.ai study-assistant repository.

This file shallowly embeds the core data-processing pipeline of the
repository in Lean 4 and proves/refutes the frozen specification claims:

* `src/service/types/quizSchema.js` — the text repair engine
  (`aggressiveJSONRepair`) and the zod-based schema normalizer
  (`parseQuizQuestions`, `mcqQuestionSchema`, `subjectiveQuestionSchema`,
  `questionsArraySchema`, `quizObjectSchema`);
* `src/service/adaptiveQuizService.js` — the performance analyzer
  (`analyzePerformance`, `extractTopicFromQuestion`,
  `generateAdaptivePrompt`'s weak/mastered topic lists);
* `src/service/notesProcessingService.js` — the content-structurer result
  construction (JSON extraction from the model response text and the
  degraded `structuredData: null` fallback);
* the storage service (`processQuizForStorage`, `processQuizzesFromStorage`,
  `storeQuizResult`, `getStoredQuizzes`, `getStoredQuizById`).

Conventions of the embedding:
* JavaScript strings are `List Char` (with `String` at the outermost API).
* `JSON.parse` is modelled by a recursive-descent parser (`parseVal`)
  faithful to the JSON grammar, with error positions (index of the
  offending character, as reported by V8's "... at position N" messages),
  and JSON numbers are kept as their raw lexemes (claims never depend on
  float arithmetic, only on parseability and truthiness).
* JavaScript regular expressions are compiled to a small backtracking
  regex engine (`RE`, `mrun`) with JS leftmost/greedy/lazy semantics;
  each regex literal of the source is transliterated into an `RE` value.
* The third-party `jsonrepair` library is not part of the repository;
  functions that call it take the library's behaviour as an explicit
  argument `jr : String → Except Unit String` (`.error` = the library
  threw).  Universal claims are proved for every `jr`; concrete runs use
  `jsonrepairModel`, modelled from the spec (see its doc comment).
* `Math.random`-generated ids are modelled by an explicit generator
  argument `g : Nat → List Char` (one fresh value per array position).
-/

/-! ### Characters that the hygiene of this file prefers to name -/

def lbraceC : Char := Char.ofNat 123

def rbraceC : Char := Char.ofNat 125

def btickC : Char := Char.ofNat 96

def bslashC : Char := '\\'

/-! ### JSON values (mutual inductive so that all recursion is structural) -/

mutual

inductive Json : Type where
  | null : Json
  | bool (b : Bool) : Json
  | num (lex : List Char) : Json
  | str (s : List Char) : Json
  | arr (elems : JArr) : Json
  | obj (fields : JObj) : Json

inductive JArr : Type where
  | nil : JArr
  | cons (hd : Json) (tl : JArr) : JArr

inductive JObj : Type where
  | nil : JObj
  | cons (k : List Char) (v : Json) (tl : JObj) : JObj

end

def JArr.toList : JArr → List Json
  | .nil => []
  | .cons h t => h :: t.toList

def JArr.ofList : List Json → JArr
  | [] => .nil
  | h :: t => .cons h (JArr.ofList t)

def JObj.toList : JObj → List (List Char × Json)
  | .nil => []
  | .cons k v t => (k, v) :: t.toList

def JObj.ofList : List (List Char × Json) → JObj
  | [] => .nil
  | (k, v) :: t => .cons k v (JObj.ofList t)

/-- Insertion of a field into a JS object: a duplicate key keeps its original
position but takes the later value (JS property-assignment semantics, which is
what `JSON.parse` does with duplicate keys). -/
def JObj.insF : JObj → List Char → Json → JObj
  | .nil, k, v => .cons k v .nil
  | .cons k0 v0 t, k, v =>
    if k0 = k then .cons k0 v t else .cons k0 v0 (t.insF k v)

/-- Field lookup, `obj.key` in JS (`none` = `undefined`). -/
def JObj.getF : JObj → List Char → Option Json
  | .nil, _ => none
  | .cons k0 v0 t, k => if k0 = k then some v0 else t.getF k

def Json.getF : Json → List Char → Option Json
  | .obj fs, k => fs.getF k
  | _, _ => none

def Json.isArr : Json → Bool
  | .arr _ => true
  | _ => false

/-- Whether a JSON number lexeme denotes zero: its mantissa digits (the digits
before any exponent marker) are all `0`. -/
def numLexZero (lex : List Char) : Bool :=
  (lex.takeWhile (fun c => c ≠ 'e' ∧ c ≠ 'E')).all (fun c => ¬ c.isDigit ∨ c = '0')

/-- JS truthiness of a JSON value (`undefined` is handled at `Option` level). -/
def Json.truthy : Json → Bool
  | .null => false
  | .bool b => b
  | .num lex => ¬ numLexZero lex
  | .str s => ¬ s.isEmpty
  | .arr _ => true
  | .obj _ => true

/-- Truthiness of a possibly-undefined JS value. -/
def jsTruthy : Option Json → Bool
  | none => false
  | some v => v.truthy

/-! ### A model of `JSON.parse`

Recursive-descent parser over `List Char`, faithful to the JSON grammar
accepted by `JSON.parse`.  Errors carry the length of the remaining input at
the offending character, from which the character index ("position N" in V8
error messages) is recovered at the top level; end-of-input errors carry no
position (V8: "Unexpected end of JSON input").  Fuel makes the recursion
structural; the top-level wrapper supplies enough fuel for any input. -/

inductive JsErr : Type where
  | eof : JsErr
  | unexpected (restLen : Nat) : JsErr
deriving DecidableEq

/-- JSON whitespace as skipped by `JSON.parse`: space, tab, LF, CR. -/
def jsonWs (c : Char) : Bool :=
  c = ' ' || c = '\t' || c = '\n' || c = '\r'

def skipWs : List Char → List Char
  | [] => []
  | c :: cs => if jsonWs c then skipWs cs else c :: cs

/-- Drop a literal prefix, or fail. -/
def dropPfx : List Char → List Char → Option (List Char)
  | [], cs => some cs
  | _ :: _, [] => none
  | p :: ps, c :: cs => if p = c then dropPfx ps cs else none

def hexVal (c : Char) : Option Nat :=
  if '0' ≤ c ∧ c ≤ '9' then some (c.toNat - 48)
  else if 'a' ≤ c ∧ c ≤ 'f' then some (c.toNat - 87)
  else if 'A' ≤ c ∧ c ≤ 'F' then some (c.toNat - 55)
  else none

/-- Body of a JSON string literal, after the opening quote.  Returns the
decoded contents and the input after the closing quote.  `\uXXXX` escapes
decode through `Char.ofNat` (code points that are not Lean scalar values,
i.e. lone surrogates, land on `Char.ofNat`'s default; no claim exercises
them). -/
def parseStrBody : List Char → List Char → Except JsErr (List Char × List Char)
  | _, [] => .error .eof
  | acc, c :: cs =>
    if c = '"' then .ok (acc.reverse, cs)
    else if c = bslashC then
      match cs with
      | [] => .error .eof
      | e :: cs2 =>
        if e = '"' then parseStrBody ('"' :: acc) cs2
        else if e = bslashC then parseStrBody (bslashC :: acc) cs2
        else if e = '/' then parseStrBody ('/' :: acc) cs2
        else if e = 'b' then parseStrBody (Char.ofNat 8 :: acc) cs2
        else if e = 'f' then parseStrBody (Char.ofNat 12 :: acc) cs2
        else if e = 'n' then parseStrBody ('\n' :: acc) cs2
        else if e = 'r' then parseStrBody ('\r' :: acc) cs2
        else if e = 't' then parseStrBody ('\t' :: acc) cs2
        else if e = 'u' then
          match cs2 with
          | h1 :: h2 :: h3 :: h4 :: cs3 =>
            match hexVal h1, hexVal h2, hexVal h3, hexVal h4 with
            | some a, some b, some c2, some d =>
              parseStrBody (Char.ofNat (a * 4096 + b * 256 + c2 * 16 + d) :: acc) cs3
            | _, _, _, _ => .error (.unexpected cs2.length)
          | _ => .error .eof
        else .error (.unexpected (e :: cs2).length)
    else if c.toNat < 32 then .error (.unexpected (c :: cs).length)
    else parseStrBody (c :: acc) cs

def digitSpan (cs : List Char) : List Char × List Char :=
  match cs with
  | [] => ([], [])
  | c :: t =>
    if c.isDigit then
      let (d, r) := digitSpan t
      (c :: d, r)
    else ([], cs)

/-- Fractional part: `('.' digits+)?` — `none` on a dot with no digits. -/
def scanFracP (cs : List Char) : Option (List Char × List Char) :=
  match cs with
  | '.' :: t =>
    match digitSpan t with
    | ([], _) => none
    | (ds, r) => some ('.' :: ds, r)
  | _ => some ([], cs)

/-- Optional exponent sign. -/
def scanSgn (cs : List Char) : List Char × List Char :=
  match cs with
  | s :: t3 => if s = '+' ∨ s = '-' then ([s], t3) else (([] : List Char), cs)
  | [] => (([] : List Char), cs)

/-- Exponent part: `([eE] [+-]? digits+)?` — `none` on a marker with no
digits. -/
def scanExpP (cs : List Char) : Option (List Char × List Char) :=
  match cs with
  | c :: t =>
    if c = 'e' ∨ c = 'E' then
      match scanSgn t with
      | (sgn2, t2) =>
        match digitSpan t2 with
        | ([], _) => none
        | (ds, r) => some (c :: sgn2 ++ ds, r)
    else some ([], cs)
  | [] => some ([], cs)

/-- Integer part: `0 | [1-9] digits*`. -/
def scanIntP (cs : List Char) : Option (List Char × List Char) :=
  match cs with
  | [] => none
  | c :: t =>
    if c = '0' then some (['0'], t)
    else if c.isDigit then
      match digitSpan t with
      | (ds, r) => some (c :: ds, r)
    else none

/-- Optional leading minus. -/
def scanSign (cs : List Char) : List Char × List Char :=
  match cs with
  | '-' :: t => ((['-'] : List Char), t)
  | _ => (([] : List Char), cs)

/-- Scan a JSON number lexeme (`-? int frac? exp?`).  Returns the lexeme and
the rest, or `none` if no valid number starts here. -/
def scanNumLex (cs : List Char) : Option (List Char × List Char) :=
  match scanSign cs with
  | (sgn, cs1) =>
    match scanIntP cs1 with
    | none => none
    | some (i, r1) =>
      match scanFracP r1 with
      | none => none
      | some (f, r2) =>
        match scanExpP r2 with
        | none => none
        | some (e, r3) => some (sgn ++ i ++ f ++ e, r3)

mutual

def parseVal : Nat → List Char → Except JsErr (Json × List Char)
  | 0, _ => .error .eof
  | f + 1, cs =>
    match skipWs cs with
    | [] => .error .eof
    | c :: rest =>
      if c = '"' then
        match parseStrBody [] rest with
        | .ok (s, r) => .ok (.str s, r)
        | .error e => .error e
      else if c = lbraceC then
        match skipWs rest with
        | [] => .error .eof
        | c2 :: r2 =>
          if c2 = rbraceC then .ok (.obj .nil, r2)
          else parseFields f (c2 :: r2) .nil
      else if c = '[' then
        match skipWs rest with
        | [] => .error .eof
        | c2 :: r2 =>
          if c2 = ']' then .ok (.arr .nil, r2)
          else parseElems f (c2 :: r2) []
      else if c = 't' then
        match dropPfx ['t', 'r', 'u', 'e'] (c :: rest) with
        | some r => .ok (.bool true, r)
        | none => .error (.unexpected (c :: rest).length)
      else if c = 'f' then
        match dropPfx ['f', 'a', 'l', 's', 'e'] (c :: rest) with
        | some r => .ok (.bool false, r)
        | none => .error (.unexpected (c :: rest).length)
      else if c = 'n' then
        match dropPfx ['n', 'u', 'l', 'l'] (c :: rest) with
        | some r => .ok (.null, r)
        | none => .error (.unexpected (c :: rest).length)
      else if c = '-' ∨ c.isDigit then
        match scanNumLex (c :: rest) with
        | some (lex, r) => .ok (.num lex, r)
        | none => .error (.unexpected (c :: rest).length)
      else .error (.unexpected (c :: rest).length)

def parseElems : Nat → List Char → List Json → Except JsErr (Json × List Char)
  | 0, _, _ => .error .eof
  | f + 1, cs, acc =>
    match parseVal f cs with
    | .error e => .error e
    | .ok (v, r) =>
      match skipWs r with
      | [] => .error .eof
      | c :: r2 =>
        if c = ',' then parseElems f r2 (acc ++ [v])
        else if c = ']' then .ok (.arr (JArr.ofList (acc ++ [v])), r2)
        else .error (.unexpected (c :: r2).length)

def parseFields : Nat → List Char → JObj → Except JsErr (Json × List Char)
  | 0, _, _ => .error .eof
  | f + 1, cs, acc =>
    match cs with
    | [] => .error .eof
    | c :: rest =>
      if c = '"' then
        match parseStrBody [] rest with
        | .error e => .error e
        | .ok (k, r1) =>
          match skipWs r1 with
          | [] => .error .eof
          | c2 :: r2 =>
            if c2 = ':' then
              match parseVal f r2 with
              | .error e => .error e
              | .ok (v, r3) =>
                match skipWs r3 with
                | [] => .error .eof
                | c3 :: r4 =>
                  if c3 = ',' then parseFields f (skipWs r4) (acc.insF k v)
                  else if c3 = rbraceC then .ok (.obj (acc.insF k v), r4)
                  else .error (.unexpected (c3 :: r4).length)
            else .error (.unexpected (c2 :: r2).length)
      else .error (.unexpected (c :: rest).length)

end

/-- Error type at the `JSON.parse` API: either end-of-input (whose V8 message
carries no "position") or an unexpected character at a given index. -/
inductive JsPErr : Type where
  | eof : JsPErr
  | atPos (pos : Nat) : JsPErr
deriving DecidableEq

def parseFuel (cs : List Char) : Nat := 2 * cs.length + 8

/-- The model of `JSON.parse` on character lists. -/
def jsonParse (cs : List Char) : Except JsPErr Json :=
  match parseVal (parseFuel cs) cs with
  | .error .eof => .error .eof
  | .error (.unexpected l) => .error (.atPos (cs.length - l))
  | .ok (v, r) =>
    match skipWs r with
    | [] => .ok v
    | rest => .error (.atPos (cs.length - rest.length))

/-- `JSON.parse` on strings. -/
def jsonParseS (s : String) : Except JsPErr Json := jsonParse s.data

/-! ### A model of `JSON.stringify`

Compact output (no indent argument anywhere in the modelled call sites).
Number lexemes are emitted verbatim (see the file comment). -/

def hexDig (n : Nat) : Char :=
  if n < 10 then Char.ofNat (48 + n) else Char.ofNat (87 + n)

def escChar (c : Char) : List Char :=
  if c = '"' then [bslashC, '"']
  else if c = bslashC then [bslashC, bslashC]
  else if c = Char.ofNat 8 then [bslashC, 'b']
  else if c = '\t' then [bslashC, 't']
  else if c = '\n' then [bslashC, 'n']
  else if c = Char.ofNat 12 then [bslashC, 'f']
  else if c = '\r' then [bslashC, 'r']
  else if c.toNat < 32 then
    [bslashC, 'u', '0', '0', hexDig (c.toNat / 16), hexDig (c.toNat % 16)]
  else [c]

def escStr : List Char → List Char
  | [] => []
  | c :: t => escChar c ++ escStr t

def strLitOf (s : List Char) : List Char := '"' :: escStr s ++ ['"']

mutual

def stringifyVal : Json → List Char
  | .num lex => lex
  | .str s => strLitOf s
  | .bool false => ['f', 'a', 'l', 's', 'e']
  | .bool true => ['t', 'r', 'u', 'e']
  | .null => ['n', 'u', 'l', 'l']
  | .arr .nil => ['[', ']']
  | .arr (.cons h t) => '[' :: stringifyVal h ++ stringifyArrTail t
  | .obj .nil => [lbraceC, rbraceC]
  | .obj (.cons k v t) =>
    lbraceC :: strLitOf k ++ ':' :: stringifyVal v ++ stringifyObjTail t

def stringifyArrTail : JArr → List Char
  | .nil => [']']
  | .cons h t => ',' :: stringifyVal h ++ stringifyArrTail t

def stringifyObjTail : JObj → List Char
  | .nil => [rbraceC]
  | .cons k v t => ',' :: strLitOf k ++ ':' :: stringifyVal v ++ stringifyObjTail t

end

/-! ### Well-formedness of parsed JSON values

`jsonParse` only produces values whose number lexemes rescan as themselves
(before any rest whose head cannot extend a number) and whose objects have
no duplicate keys; this is exactly what the `stringifyVal` round-trip
requires. -/

/-- Characters that could extend a JSON number lexeme. -/
def numCont (c : Char) : Prop :=
  c.isDigit ∨ c = '.' ∨ c = 'e' ∨ c = 'E' ∨ c = '+' ∨ c = '-'

/-- A list whose head (if any) cannot extend a number lexeme. -/
def numSafe (t : List Char) : Prop := ∀ c, t.head? = some c → ¬ numCont c

/-- A well-formed number lexeme: rescanning it before any `numSafe` rest
yields the lexeme itself. -/
def NumWF (lex : List Char) : Prop :=
  ∀ t, numSafe t → scanNumLex (lex ++ t) = some (lex, t)

mutual

def WFj : Json → Prop
  | .null => True
  | .bool _ => True
  | .num lex => NumWF lex
  | .str _ => True
  | .arr l => WFA l
  | .obj o => WFO o

def WFA : JArr → Prop
  | .nil => True
  | .cons h t => WFj h ∧ WFA t

def WFO : JObj → Prop
  | .nil => True
  | .cons k v t => WFj v ∧ WFO t ∧ t.getF k = none

end

/-- Insert a list of fields one by one (the shape `parseFields` builds). -/
def JObj.insAll : JObj → List (List Char × Json) → JObj
  | o, [] => o
  | o, (k, v) :: t => (o.insF k v).insAll t

/-! ### A small backtracking regex engine with JavaScript semantics

Leftmost match, ordered alternation, greedy/lazy quantifiers with
backtracking, numbered capture groups (at most 3 are needed).  The matcher is
written in continuation-passing style; fuel makes it structural, and
`reFuel` is generously above the worst-case backtracking chain depth for the
star-height-1 patterns that occur in the source (every star/plus body
consumes at least one character). -/

inductive RE : Type where
  | cls (p : Char → Bool) : RE
  | lit (s : List Char) : RE
  | seq (a b : RE) : RE
  | alt (a b : RE) : RE
  | grp (n : Nat) (r : RE) : RE
  | star (r : RE) (lzy : Bool) : RE
  | opt (r : RE) (lzy : Bool) : RE

def RE.size : RE → Nat
  | .cls _ => 1
  | .lit s => s.length + 1
  | .seq a b => a.size + b.size + 1
  | .alt a b => a.size + b.size + 1
  | .grp _ r => r.size + 1
  | .star r _ => r.size + 1
  | .opt r _ => r.size + 1

/-- One-or-more, greedy (`+`). -/
def RE.plusG (r : RE) : RE := .seq r (.star r false)

/-- One-or-more, lazy (`+?`). -/
def RE.plusL (r : RE) : RE := .seq r (.star r true)

/-- Capture groups 1–3 (`none` = group did not participate). -/
def G3 : Type := Option (List Char) × Option (List Char) × Option (List Char)

def G3.empty : G3 := (none, none, none)

def G3.set (n : Nat) (v : List Char) (g : G3) : G3 :=
  match n, g with
  | 1, (_, b, c) => (some v, b, c)
  | 2, (a, _, c) => (a, some v, c)
  | 3, (a, b, _) => (a, b, some v)
  | _, g2 => g2

/-- `$1` in a replacement (a non-participating group substitutes as ""). -/
def G3.g1 (g : G3) : List Char := g.1.getD []

def G3.g2 (g : G3) : List Char := g.2.1.getD []

def G3.g3 (g : G3) : List Char := g.2.2.getD []

def orElseO {α : Type} (a : Option α) (b : Unit → Option α) : Option α :=
  match a with
  | some x => some x
  | none => b ()

def mrun {α : Type} : Nat → RE → List Char → G3 → (List Char → G3 → Option α) → Option α
  | 0, _, _, _, _ => none
  | f + 1, re, cs, g, k =>
    match re with
    | .cls p =>
      match cs with
      | [] => none
      | c :: t => if p c then k t g else none
    | .lit s =>
      match dropPfx s cs with
      | some t => k t g
      | none => none
    | .seq a b => mrun f a cs g (fun cs1 g1 => mrun f b cs1 g1 k)
    | .alt a b => orElseO (mrun f a cs g k) (fun _ => mrun f b cs g k)
    | .grp n r =>
      mrun f r cs g (fun cs1 g1 => k cs1 (g1.set n (cs.take (cs.length - cs1.length))))
    | .opt r lz =>
      if lz then orElseO (k cs g) (fun _ => mrun f r cs g k)
      else orElseO (mrun f r cs g k) (fun _ => k cs g)
    | .star r lz =>
      if lz then
        orElseO (k cs g) (fun _ =>
          mrun f r cs g (fun cs1 g1 =>
            if cs1.length < cs.length then mrun f (.star r lz) cs1 g1 k else none))
      else
        orElseO
          (mrun f r cs g (fun cs1 g1 =>
            if cs1.length < cs.length then mrun f (.star r lz) cs1 g1 k else none))
          (fun _ => k cs g)

def reFuel (re : RE) (cs : List Char) : Nat := (cs.length + 2) * (re.size + 2)

/-- Leftmost match: scans start positions left to right.  Returns
(prefix before the match, matched text, groups, rest after the match). -/
def mfindAux (re : RE) : List Char → List Char → Option (List Char × List Char × G3 × List Char)
  | acc, cs =>
    match mrun (reFuel re cs) re cs G3.empty (fun rest g => some (rest, g)) with
    | some (rest, g) =>
      some (acc.reverse, cs.take (cs.length - rest.length), g, rest)
    | none =>
      match cs with
      | [] => none
      | c :: t => mfindAux re (c :: acc) t

def mfind (re : RE) (cs : List Char) : Option (List Char × List Char × G3 × List Char) :=
  mfindAux re [] cs

/-- `String.prototype.replace` with a global regex and a replacement function
(matched text and groups to output); all the source's patterns match at least
one character, so scanning resumes after each match. -/
def replaceAllF (rep : List Char → G3 → List Char) (re : RE) : Nat → List Char → List Char
  | 0, cs => cs
  | f + 1, cs =>
    match mfind re cs with
    | none => cs
    | some (pre, m, g, rest) =>
      if m.isEmpty then cs
      else pre ++ rep m g ++ replaceAllF rep re f rest

def replaceAll (re : RE) (rep : List Char → G3 → List Char) (cs : List Char) : List Char :=
  replaceAllF rep re (cs.length + 1) cs

/-- `String.prototype.match` with a global regex: the list of matched
substrings (`null` becomes `[]` at the call site via `|| []`). -/
def matchListF (re : RE) : Nat → List Char → List (List Char)
  | 0, _ => []
  | f + 1, cs =>
    match mfind re cs with
    | none => []
    | some (_, m, _, rest) => if m.isEmpty then [] else m :: matchListF re f rest

def globalMatches (re : RE) (cs : List Char) : List (List Char) :=
  matchListF re (cs.length + 1) cs

/-! ### JS string helpers -/

/-- JS regex `\s` / `String.prototype.trim` whitespace. -/
def jsWsRe (c : Char) : Bool :=
  c = ' ' || c = '\t' || c = '\n' || c = '\r' || c = Char.ofNat 11 ||
  c = Char.ofNat 12 || c = Char.ofNat 160 || c = Char.ofNat 5760 ||
  (8192 ≤ c.toNat && c.toNat ≤ 8202) || c = Char.ofNat 8232 ||
  c = Char.ofNat 8233 || c = Char.ofNat 8239 || c = Char.ofNat 8287 ||
  c = Char.ofNat 12288 || c = Char.ofNat 65279

def jsTrim (cs : List Char) : List Char :=
  ((cs.dropWhile jsWsRe).reverse.dropWhile jsWsRe).reverse

def jsSplitCh (sep : Char) (cs : List Char) : List (List Char) :=
  match cs with
  | [] => [[]]
  | c :: t =>
    let r := jsSplitCh sep t
    if c = sep then [] :: r
    else
      match r with
      | [] => [[c]]
      | h :: t2 => (c :: h) :: t2

def jsJoinCh (sep : Char) : List (List Char) → List Char
  | [] => []
  | [x] => x
  | x :: t => x ++ sep :: jsJoinCh sep t

def idxOfCh (c : Char) (cs : List Char) : Option Nat :=
  match cs with
  | [] => none
  | x :: t => if x = c then some 0 else (idxOfCh c t).map (· + 1)

def lastIdxOfCh (c : Char) (cs : List Char) : Option Nat :=
  match (idxOfCh c cs.reverse) with
  | none => none
  | some i => some (cs.length - 1 - i)

def containsCh (c : Char) (cs : List Char) : Bool := cs.contains c

/-- `str.substring(a, b)` for `a ≤ b`. -/
def jsSub (cs : List Char) (a b : Nat) : List Char := (cs.take b).drop a

def endsWithCh (cs : List Char) (c : Char) : Bool :=
  match cs.getLast? with
  | some x => x = c
  | none => false

/-- JS characters classes used by the source's regexes. -/
def wordC (c : Char) : Bool := c.isAlpha || c.isDigit || c = '_'

def squoteC : Char := Char.ofNat 39

/-! ### The regexes of `aggressiveJSONRepair` (quizSchema.js lines 250–546)

Each `RE` below transliterates one regex literal of the source, in source
order.  Recall that in a JS regex literal `\\` matches one literal backslash,
so e.g. `/:\\s*"…/` matches a colon, a backslash, then a run of letter `s`. -/

def wsStar : RE := .star (.cls jsWsRe) false

/-- `/"([a-zA-Z0-9_]+)\\"/g` → `'"$1"'`. -/
def reA1 : RE :=
  .seq (.lit ['"']) (.seq (.grp 1 (RE.plusG (.cls wordC))) (.lit [bslashC, '"']))

def repA1 (cs : List Char) : List Char :=
  replaceAll reA1 (fun _ g => '"' :: g.g1 ++ ['"']) cs

/-- `/:\\s*"([^"\\]*?)\\"/g` → `': "$1"'`. -/
def reA2 : RE :=
  .seq (.lit [':', bslashC])
    (.seq (.star (.cls (fun c => c = 's')) false)
      (.seq (.lit ['"'])
        (.seq (.grp 1 (.star (.cls (fun c => ¬ (c = '"' ∨ c = bslashC))) true))
          (.lit [bslashC, '"']))))

def repA2 (cs : List Char) : List Char :=
  replaceAll reA2 (fun _ g => ':' :: ' ' :: '"' :: g.g1 ++ ['"']) cs

/-- `/"\\\\?\(([^)]+?)\\\\?\)\\"/g` → `'"\\($1\\)"'`. -/
def reA3 : RE :=
  .seq (.lit ['"', bslashC])
    (.seq (.opt (.lit [bslashC]) false)
      (.seq (.lit ['('])
        (.seq (.grp 1 (RE.plusL (.cls (fun c => c ≠ ')'))))
          (.seq (.lit [bslashC])
            (.seq (.opt (.lit [bslashC]) false) (.lit [')', bslashC, '"']))))))

def repA3 (cs : List Char) : List Char :=
  replaceAll reA3 (fun _ g => '"' :: bslashC :: '(' :: g.g1 ++ [bslashC, ')', '"']) cs

def repairPassA (cs : List Char) : List Char := repA3 (repA2 (repA1 cs))

/-- `/\s*([a-zA-Z0-9_]+)(\s*)([^:"])/` (first match, on line 3). -/
def rePropName : RE :=
  .seq wsStar
    (.seq (.grp 1 (RE.plusG (.cls wordC)))
      (.seq (.grp 2 wsStar) (.grp 3 (.cls (fun c => ¬ (c = ':' ∨ c = '"'))))))

/-- The dynamic regex built from the detected property name:
`new RegExp("\\s*(" + p + ")\\s*([^:\"])", "g")`. -/
def reDyn (p : List Char) : RE :=
  .seq wsStar
    (.seq (.grp 1 (.lit p))
      (.seq wsStar (.grp 2 (.cls (fun c => ¬ (c = ':' ∨ c = '"'))))))

/-- The "position 18 / line 3" heuristic (source lines 266–300). -/
def line3Fix (js : List Char) : List Char :=
  if js.length > 20 then
    let lines := jsSplitCh '\n' js
    if lines.length ≥ 3 then
      let line3 := (lines.get? 2).getD []
      if line3.length ≥ 13 then
        match mfind rePropName line3 with
        | some (_, _, g, _) =>
          let p := g.g1
          let l3 := replaceAll (reDyn p)
            (fun _ g2 => ' ' :: '"' :: p ++ '"' :: ':' :: ' ' :: g2.g2) line3
          jsJoinCh '\n' (lines.set 2 l3)
        | none => js
      else js
    else js
  else js

/-- `` /```(?:json)?\s*([\s\S]*?)\s*```/ `` (first match). -/
def reFence : RE :=
  .seq (.lit [btickC, btickC, btickC])
    (.seq (.opt (.lit ['j', 's', 'o', 'n']) false)
      (.seq wsStar
        (.seq (.grp 1 (.star (.cls (fun _ => true)) true))
          (.seq wsStar (.lit [btickC, btickC, btickC])))))

/-- Step 2: extract the `[ … ]` span (source lines 311–318). -/
def step2Extract (cleaned : List Char) : List Char :=
  if containsCh '[' cleaned ∧ containsCh ']' cleaned then
    match idxOfCh '[' cleaned, lastIdxOfCh ']' cleaned with
    | some s, some e => if e + 1 > s then jsSub cleaned s (e + 1) else cleaned
    | _, _ => cleaned
  else cleaned

/-- The "extra check" on the first non-whitespace character (lines 324–349). -/
def stepArrayStart (cleaned : List Char) : List Char :=
  match cleaned.find? (fun c => ¬ jsWsRe c) with
  | none => cleaned
  | some c =>
    if c = '[' then cleaned
    else if c = lbraceC then '[' :: cleaned ++ [']']
    else
      match idxOfCh '[' cleaned with
      | some i => cleaned.drop i
      | none => ['[', ']']

/-- Two-or-more literal backslashes, `\\{2,}`. -/
def twoPlusBS : RE := .seq (.lit [bslashC, bslashC]) (.star (.cls (fun c => c = bslashC)) false)

/-- `/\\{2,}([a-zA-Z]+\{)/g` → `"\\$1"`. -/
def reB1 : RE := .seq twoPlusBS (.grp 1 (.seq (RE.plusG (.cls Char.isAlpha)) (.lit [lbraceC])))

/-- `/\\{2,}([a-zA-Z]+)/g` → `"\\$1"`. -/
def reB2 : RE := .seq twoPlusBS (.grp 1 (RE.plusG (.cls Char.isAlpha)))

def repBS1 (cs : List Char) : List Char :=
  replaceAll reB1 (fun _ g => bslashC :: g.g1) cs

def repBS2 (cs : List Char) : List Char :=
  replaceAll reB2 (fun _ g => bslashC :: g.g1) cs

/-- One named collapse `/\\{2,}word/g` → `"\word"`. -/
def repNamed (w : List Char) (cs : List Char) : List Char :=
  replaceAll (.seq twoPlusBS (.lit w)) (fun _ _ => bslashC :: w) cs

/-- The whole "NEW: … inconsistent escaping" block (source lines 352–376). -/
def newBlockFix (cs : List Char) : List Char :=
  let x := repBS2 (repBS1 (repA3 (repA2 (repA1 cs))))
  let x := repNamed ['f', 'r', 'a', 'c'] x
  let x := repNamed ['D', 'e', 'l', 't', 'a'] x
  let x := repNamed ['d', 'e', 'l', 't', 'a'] x
  let x := repNamed ['a', 'l', 'p', 'h', 'a'] x
  let x := repNamed ['b', 'e', 't', 'a'] x
  let x := repNamed ['g', 'a', 'm', 'm', 'a'] x
  let x := repNamed ['s', 'u', 'm'] x
  let x := repNamed ['i', 'n', 't'] x
  let x := repNamed ['l', 'i', 'm'] x
  repNamed ['t', 'o'] x

/-- `/(\{|\,)\s*([a-zA-Z0-9_]+)\s*\:/g` → `'$1"$2":'`. -/
def reStep3a : RE :=
  .seq (.grp 1 (.alt (.lit [lbraceC]) (.lit [','])))
    (.seq wsStar (.seq (.grp 2 (RE.plusG (.cls wordC))) (.seq wsStar (.lit [':']))))

/-- `/(\{|\,)\s*\'([a-zA-Z0-9_]+)\'\s*\:/g` → `'$1"$2":'`. -/
def reStep3b : RE :=
  .seq (.grp 1 (.alt (.lit [lbraceC]) (.lit [','])))
    (.seq wsStar
      (.seq (.lit [squoteC])
        (.seq (.grp 2 (RE.plusG (.cls wordC)))
          (.seq (.lit [squoteC]) (.seq wsStar (.lit [':']))))))

/-- `/\{([^{]*?)([a-zA-Z0-9_]+)(\s*:)/g` with the guard callback. -/
def reStep3c : RE :=
  .seq (.lit [lbraceC])
    (.seq (.grp 1 (.star (.cls (fun c => c ≠ lbraceC)) true))
      (.seq (.grp 2 (RE.plusG (.cls wordC))) (.grp 3 (.seq wsStar (.lit [':'])))))

def repStep3c (cs : List Char) : List Char :=
  replaceAll reStep3c
    (fun m g =>
      let bt := jsTrim g.g1
      if ¬ endsWithCh bt '"' ∧ ¬ endsWithCh bt squoteC then
        lbraceC :: g.g1 ++ '"' :: g.g2 ++ '"' :: g.g3
      else m)
    cs

/-- `/:\s*\'([^\']*)\'/g` → `':"$1"'`. -/
def reStep3d : RE :=
  .seq (.lit [':'])
    (.seq wsStar
      (.seq (.lit [squoteC])
        (.seq (.grp 1 (.star (.cls (fun c => c ≠ squoteC)) false)) (.lit [squoteC]))))

/-- `/,\s*\}/g` and `/,\s*\]/g` (strip trailing commas). -/
def reTrailB (close : Char) : RE := .seq (.lit [',']) (.seq wsStar (.lit [close]))

/-- `/"\s*\}/g` → `'"}'`. -/
def reQuoteBrace : RE := .seq (.lit ['"']) (.seq wsStar (.lit [rbraceC]))

/-- `/"\s*\{/g` → `'",{'`. -/
def reQuoteOpen : RE := .seq (.lit ['"']) (.seq wsStar (.lit [lbraceC]))

/-- `/,\s*,/g` → `","`. -/
def reDupComma : RE := .seq (.lit [',']) (.seq wsStar (.lit [',']))

/-- `/:\s*([a-zA-Z][a-zA-Z0-9_]*)\s*([,\}])/g` → `':"$1"$2'`. -/
def reStep3i : RE :=
  .seq (.lit [':'])
    (.seq wsStar
      (.seq (.grp 1 (.seq (.cls Char.isAlpha) (.star (.cls wordC) false)))
        (.seq wsStar (.grp 2 (.alt (.lit [',']) (.lit [rbraceC]))))))

/-- `/\\\\([a-zA-Z]+)/g` → `"\\$1"`. -/
def reStep3j : RE := .seq (.lit [bslashC, bslashC]) (.grp 1 (RE.plusG (.cls Char.isAlpha)))

/-- `/"([^"\\]*)"([^"]*")/g` → `'"$1\\"$2'` ("ensure quotes within strings
are escaped"). -/
def reStep3l : RE :=
  .seq (.lit ['"'])
    (.seq (.grp 1 (.star (.cls (fun c => ¬ (c = '"' ∨ c = bslashC))) false))
      (.seq (.lit ['"'])
        (.grp 2 (.seq (.star (.cls (fun c => c ≠ '"')) false) (.lit ['"'])))))

/-- `/\}\s*\{/g` → `"},{"` and its three bracket variants. -/
def rePair (a b : Char) : RE := .seq (.lit [a]) (.seq wsStar (.lit [b]))

/-- Step 3, "fix common JSON syntax errors" (source lines 379–432), in
source order. -/
def step3Fix (cs : List Char) : List Char :=
  let x := replaceAll reStep3a (fun _ g => g.g1 ++ '"' :: g.g2 ++ ['"', ':']) cs
  let x := replaceAll reStep3b (fun _ g => g.g1 ++ '"' :: g.g2 ++ ['"', ':']) x
  let x := repStep3c x
  let x := replaceAll reStep3d (fun _ g => ':' :: '"' :: g.g1 ++ ['"']) x
  let x := replaceAll (reTrailB rbraceC) (fun _ _ => [rbraceC]) x
  let x := replaceAll (reTrailB ']') (fun _ _ => [']']) x
  let x := replaceAll reQuoteBrace (fun _ _ => ['"', rbraceC]) x
  let x := replaceAll reQuoteOpen (fun _ _ => ['"', ',', lbraceC]) x
  let x := replaceAll reDupComma (fun _ _ => [',']) x
  let x := replaceAll reStep3i (fun _ g => ':' :: '"' :: g.g1 ++ '"' :: g.g2) x
  let x := replaceAll reStep3j (fun _ g => bslashC :: g.g1) x
  let x := replaceAll (.lit [bslashC, 'f', 'r', 'a', 'c'])
    (fun _ _ => [bslashC, 'f', 'r', 'a', 'c']) x
  let x := replaceAll
    (.lit [bslashC, bslashC, bslashC, bslashC, 'f', 'r', 'a', 'c'])
    (fun _ _ => [bslashC, 'f', 'r', 'a', 'c']) x
  let x := replaceAll reStep3l (fun _ g => '"' :: g.g1 ++ bslashC :: '"' :: g.g2) x
  let x := replaceAll (rePair rbraceC lbraceC) (fun _ _ => [rbraceC, ',', lbraceC]) x
  let x := replaceAll (rePair ']' '[') (fun _ _ => [']', ',', '[']) x
  let x := replaceAll (rePair rbraceC '[') (fun _ _ => [rbraceC, ',', '[']) x
  replaceAll (rePair ']' lbraceC) (fun _ _ => [']', ',', lbraceC]) x

/-- `/\{[^{]*?"question":[^}]*?\}/g` (emergency question-block scan). -/
def reQBlock : RE :=
  .seq (.lit [lbraceC])
    (.seq (.star (.cls (fun c => c ≠ lbraceC)) true)
      (.seq (.lit ['"', 'q', 'u', 'e', 's', 't', 'i', 'o', 'n', '"', ':'])
        (.seq (.star (.cls (fun c => c ≠ rbraceC)) true) (.lit [rbraceC]))))

/-- `/([{,]\s*)([a-zA-Z0-9_]+)(\s*:)/g` → `'$1"$2"$3'` (per-block fix). -/
def rePropFix : RE :=
  .seq (.grp 1 (.seq (.cls (fun c => c = lbraceC ∨ c = ',')) wsStar))
    (.seq (.grp 2 (RE.plusG (.cls wordC))) (.grp 3 (.seq wsStar (.lit [':']))))

/-- Step 6: emergency repairs (source lines 510–544). -/
def emergencyStep (cleaned : List Char) : List Char :=
  let blocks := globalMatches reQBlock cleaned
  let questions := blocks.foldl
    (fun acc b =>
      let fb := if b.head? = some lbraceC then b else lbraceC :: b
      let fb := if endsWithCh fb rbraceC then fb else fb ++ [rbraceC]
      let fb := replaceAll rePropFix (fun _ g => g.g1 ++ '"' :: g.g2 ++ '"' :: g.g3) fb
      match jsonParse fb with
      | .ok q =>
        if q.truthy ∧ jsTruthy (q.getF ['q', 'u', 'e', 's', 't', 'i', 'o', 'n']) then
          acc ++ [q]
        else acc
      | .error _ => acc)
    ([] : List Json)
  if questions.length > 0 then stringifyVal (.arr (JArr.ofList questions)) else ['[', ']']

/-- The error caught by step 5's catch: a `JSON.parse` syntax error or the
`TypeError` from reading `.quiz` off a parsed `null`.  Only syntax errors at
a character index have "position" in their V8 message. -/
inductive RepairErr : Type where
  | parseErr (e : JsPErr) : RepairErr
  | nullAccess : RepairErr

/-- The catch handler of step 5 (source lines 472–544): optional deletion of
a backslash at the reported error position with one re-parse attempt, then
the emergency scan. -/
def catchStep (cleaned : List Char) (e : RepairErr) : List Char :=
  match e with
  | .parseErr (.atPos p) =>
    if cleaned.get? p = some bslashC ∨ (1 ≤ p ∧ cleaned.get? (p - 1) = some bslashC) then
      let cl2 := cleaned.take p ++ cleaned.drop (p + 1)
      match jsonParse cl2 with
      | .ok (.arr _) => cl2
      | _ => emergencyStep cl2
    else emergencyStep cleaned
  | _ => emergencyStep cleaned

/-- Step 5: validate the repaired JSON (source lines 444–508): parse; an
array is returned as-is; an object is unwrapped at `.quiz` (stringified) or
wrapped in `[...]`; `null` raises the `.quiz` TypeError into the catch;
other values give `"[]"`; parse errors go to the catch handler. -/
def validateStep (cleaned : List Char) : List Char :=
  match jsonParse cleaned with
  | .ok v =>
    match v with
    | .arr _ => cleaned
    | .null => catchStep cleaned .nullAccess
    | .obj fs =>
      match fs.getF ['q', 'u', 'i', 'z'] with
      | some q =>
        if q.truthy ∧ q.isArr then stringifyVal q else '[' :: cleaned ++ [']']
      | none => '[' :: cleaned ++ [']']
    | _ => ['[', ']']
  | .error e => catchStep cleaned (.parseErr e)

/-- The text repair engine, `aggressiveJSONRepair` of
`src/service/types/quizSchema.js` (lines 250–546).  `jr` is the behaviour of
the external `jsonrepair` library call of step 4 (`.error` = it threw, in
which case the code keeps its own `cleaned`). -/
def aggressiveJSONRepair (jr : String → Except Unit String) (jsonString : String) : String :=
  let js0 := jsonString.data
  if js0.isEmpty then "[]"
  else
    let js1 := repairPassA js0
    let js2 := line3Fix js1
    let cleaned0 :=
      match mfind reFence js2 with
      | some (_, _, g, _) => jsTrim g.g1
      | none => js2
    let cleaned1 := step2Extract cleaned0
    let cleaned2 := stepArrayStart cleaned1
    let cleaned3 := newBlockFix cleaned2
    let cleaned4 := step3Fix cleaned3
    let cleaned5 :=
      match jr (String.mk cleaned4) with
      | .ok s => s.data
      | .error _ => cleaned4
    String.mk (validateStep cleaned5)

/-- Modelled from the spec: the call into the third-party `jsonrepair`
library (repair pass 6, "Library-assisted repair — run a general-purpose
forgiving JSON fixer as a final normalization pass"); the library's code is
not part of this repository.  The model passes already-valid JSON through
verbatim (the real library streams valid input unchanged) and reports
failure on anything else (where the real library would attempt repairs of
its own).  Theorems quantified over `jr` are independent of this model. -/
def jsonrepairModel (s : String) : Except Unit String :=
  if (jsonParseS s).toOption.isSome then .ok s else .error ()

/-! ### The zod schema normalizer (quizSchema.js lines 98–243, 553–623)

`z.object` accepts only plain objects (not arrays, not `null`), rejects a
declared field of the wrong type, strips undeclared keys, and applies
`.optional()` / `.default(…)`; `z.union` returns the first alternative that
parses, in order.  `none` models a thrown `ZodError`. -/

structure McqOption : Type where
  id : List Char
  text : List Char
deriving DecidableEq, Repr

/-- Result of `mcqQuestionSchema`'s base object parse, before `.transform`. -/
structure McqRec : Type where
  id : Option (List Char)
  question : List Char
  options : List McqOption
  correctAnswer : Option (List Char)
  answer : Option (List Char)
  explanation : List Char
  topic : List Char
deriving DecidableEq, Repr

structure McqOut : Type where
  id : List Char
  type : List Char
  question : List Char
  options : List McqOption
  correctAnswer : List Char
  answer : Option (List Char)
  explanation : List Char
  topic : List Char
deriving DecidableEq, Repr

structure SubjOut : Type where
  id : List Char
  type : List Char
  question : List Char
  sampleAnswer : List Char
  sample_answer : Option (List Char)
  topic : List Char
deriving DecidableEq, Repr

inductive QOut : Type where
  | mcq (q : McqOut) : QOut
  | subj (q : SubjOut) : QOut
deriving DecidableEq, Repr

def QOut.isMcq : QOut → Bool
  | .mcq _ => true
  | .subj _ => false

/-- JS truthiness of a possibly-absent string field. -/
def optTruthy : Option (List Char) → Bool
  | none => false
  | some s => ¬ s.isEmpty

def zString : Json → Option (List Char)
  | .str s => some s
  | _ => none

def allSome : List (Option α) → Option (List α)
  | [] => some []
  | none :: _ => none
  | some x :: t => (allSome t).map (x :: ·)

/-- `z.object({ id: z.string(), text: z.string() })` (undeclared keys are
stripped). -/
def mcqOptionParse (j : Json) : Option McqOption :=
  match j with
  | .obj fs =>
    match fs.getF "id".data, fs.getF "text".data with
    | some (.str i), some (.str t) => some ⟨i, t⟩
    | _, _ => none
  | _ => none

/-- Canonical array-index property key (all digits, no leading zero). -/
def isArrIdxKey (k : List Char) : Bool :=
  ¬ k.isEmpty ∧ k.all Char.isDigit ∧ (k.head? ≠ some '0' ∨ k = ['0'])

def keyNatVal (k : List Char) : Nat :=
  k.foldl (fun a c => a * 10 + (c.toNat - 48)) 0

def insByKey (p : List Char × Json) : List (List Char × Json) → List (List Char × Json)
  | [] => [p]
  | q :: t => if keyNatVal p.1 < keyNatVal q.1 then p :: q :: t else q :: insByKey p t

/-- `Object.entries` order: integer-like keys ascending first, then the
remaining keys in insertion order. -/
def jsEntries (fs : List (List Char × Json)) : List (List Char × Json) :=
  (fs.filter (fun p => isArrIdxKey p.1)).foldr insByKey [] ++
    fs.filter (fun p => ¬ isArrIdxKey p.1)

def optIdsFrom : Nat → List (List Char) → List McqOption
  | _, [] => []
  | i, s :: t => ⟨[Char.ofNat (97 + i)], s⟩ :: optIdsFrom (i + 1) t

/-- The `options` union: array of option objects, else `z.record(string,
string)` transformed to entries, else array of strings given ids `a, b, c, …`
(`String.fromCharCode(97 + index)`), in that order. -/
def optionsUnionParse (j : Json) : Option (List McqOption) :=
  match j with
  | .arr l =>
    match allSome (l.toList.map mcqOptionParse) with
    | some opts => some opts
    | none =>
      match allSome (l.toList.map zString) with
      | some strs => some (optIdsFrom 0 strs)
      | none => none
  | .obj fs =>
    allSome ((jsEntries fs.toList).map fun p => (zString p.2).map fun s => (⟨p.1, s⟩ : McqOption))
  | _ => none

/-- The four fabricated placeholder options. -/
def defaultOptions : List McqOption :=
  [⟨['a'], "Option A".data⟩, ⟨['b'], "Option B".data⟩,
   ⟨['c'], "Option C".data⟩, ⟨['d'], "Option D".data⟩]

def headOptId : List McqOption → List Char
  | [] => []
  | o :: _ => o.id

/-- The `.transform` of `mcqQuestionSchema` (source lines 151–182): move
`answer` into `correctAnswer`, generate a missing id, fabricate placeholder
options, default `correctAnswer` to the first option's id. -/
def mcqTransform (g : Nat → List Char) (k : Nat) (r : McqRec) : McqOut :=
  let moved := ¬ optTruthy r.correctAnswer ∧ optTruthy r.answer
  let ca1 : Option (List Char) := if moved then r.answer else r.correctAnswer
  let ans1 : Option (List Char) := if moved then none else r.answer
  let id1 : List Char := if optTruthy r.id then r.id.getD [] else 'q' :: g k
  let opts1 : List McqOption := if r.options.isEmpty then defaultOptions else r.options
  let ca2 : List Char := if optTruthy ca1 then ca1.getD [] else headOptId opts1
  { id := id1, type := "mcq".data, question := r.question, options := opts1,
    correctAnswer := ca2, answer := ans1, explanation := r.explanation,
    topic := r.topic }

/-- Base object parse of `mcqQuestionSchema` (source lines 115–150). -/
def mcqBaseParse (j : Json) : Option McqRec :=
  match j with
  | .obj fs => do
    let idF ← match fs.getF "id".data with
      | none => some none
      | some v => (zString v).map some
    match fs.getF "type".data with
      | none => some ()
      | some v => if zString v = some "mcq".data then some () else none
    let q ← match fs.getF "question".data with
      | some v => zString v
      | none => none
    let opts ← match fs.getF "options".data with
      | none => some []
      | some v => optionsUnionParse v
    let ca ← match fs.getF "correctAnswer".data with
      | none => some none
      | some v => (zString v).map some
    let ans ← match fs.getF "answer".data with
      | none => some none
      | some v => (zString v).map some
    let expl ← match fs.getF "explanation".data with
      | none => some []
      | some v => zString v
    let top ← match fs.getF "topic".data with
      | none => some []
      | some v => zString v
    some { id := idF, question := q, options := opts, correctAnswer := ca,
           answer := ans, explanation := expl, topic := top }
  | _ => none

/-- `mcqQuestionSchema` (source lines 115–182): base parse then transform. -/
def mcqQuestionSchemaParse (g : Nat → List Char) (k : Nat) (j : Json) : Option McqOut :=
  (mcqBaseParse j).map (mcqTransform g k)

/-- Result of `subjectiveQuestionSchema`'s base parse. -/
structure SubjRec : Type where
  id : Option (List Char)
  question : List Char
  sampleAnswer : Option (List Char)
  sample_answer : Option (List Char)
  topic : List Char
deriving DecidableEq, Repr

/-- The `.transform` of `subjectiveQuestionSchema` (source lines 199–220). -/
def subjTransform (g : Nat → List Char) (k : Nat) (r : SubjRec) : SubjOut :=
  let moved := ¬ optTruthy r.sampleAnswer ∧ optTruthy r.sample_answer
  let sa1 : Option (List Char) := if moved then r.sample_answer else r.sampleAnswer
  let snake1 : Option (List Char) := if moved then none else r.sample_answer
  let id1 : List Char := if optTruthy r.id then r.id.getD [] else 'q' :: g k
  let sa2 : List Char :=
    if optTruthy sa1 then sa1.getD [] else "No sample answer provided".data
  { id := id1, type := "subjective".data, question := r.question,
    sampleAnswer := sa2, sample_answer := snake1, topic := r.topic }

/-- Base object parse of `subjectiveQuestionSchema` (source lines 187–198). -/
def subjBaseParse (j : Json) : Option SubjRec :=
  match j with
  | .obj fs => do
    let idF ← match fs.getF "id".data with
      | none => some none
      | some v => (zString v).map some
    match fs.getF "type".data with
      | none => some ()
      | some v => if zString v = some "subjective".data then some () else none
    let q ← match fs.getF "question".data with
      | some v => zString v
      | none => none
    let sa ← match fs.getF "sampleAnswer".data with
      | none => some none
      | some v => (zString v).map some
    let snake ← match fs.getF "sample_answer".data with
      | none => some none
      | some v => (zString v).map some
    let top ← match fs.getF "topic".data with
      | none => some []
      | some v => zString v
    some { id := idF, question := q, sampleAnswer := sa, sample_answer := snake,
           topic := top }
  | _ => none

/-- `subjectiveQuestionSchema` (source lines 187–220): base then transform. -/
def subjectiveQuestionSchemaParse (g : Nat → List Char) (k : Nat) (j : Json) :
    Option SubjOut :=
  (subjBaseParse j).map (subjTransform g k)

/-- `questionSchema = z.union([mcqQuestionSchema, subjectiveQuestionSchema])`
(source lines 225–228): first success wins, mcq first. -/
def questionSchemaParse (g : Nat → List Char) (k : Nat) (j : Json) : Option QOut :=
  match mcqQuestionSchemaParse g k j with
  | some m => some (.mcq m)
  | none => (subjectiveQuestionSchemaParse g k j).map .subj

/-- `questionsArraySchema = z.array(questionSchema)` (source line 233): any
failing element fails the whole array. -/
def questionsArraySchemaParse (g : Nat → List Char) : Nat → List Json → Option (List QOut)
  | _, [] => some []
  | k, j :: t =>
    match questionSchemaParse g k j with
    | some q => (questionsArraySchemaParse g (k + 1) t).map (q :: ·)
    | none => none

/-- `quizObjectSchema` (source lines 238–242). -/
def quizObjectSchemaParse (g : Nat → List Char) (j : Json) : Option (List QOut) :=
  match j with
  | .obj fs =>
    match fs.getF "quiz".data with
    | some (.arr l) => questionsArraySchemaParse g 0 l.toList
    | _ => none
  | _ => none

/-- The non-string dispatch of `parseQuizQuestions` (source lines 602–622):
a bare array, `{quiz: […]}`, `{quizQuestions: […]}`, otherwise `[]`; a
`ZodError` is caught by the enclosing try and gives `[]`. -/
def parseQuizQuestionsData (g : Nat → List Char) (d : Json) : List QOut :=
  match d with
  | .arr l => (questionsArraySchemaParse g 0 l.toList).getD []
  | .obj fs =>
    if jsTruthy (fs.getF "quiz".data) then (quizObjectSchemaParse g d).getD []
    else if jsTruthy (fs.getF "quizQuestions".data) then
      (match fs.getF "quizQuestions".data with
       | some (.arr l) => questionsArraySchemaParse g 0 l.toList
       | _ => none).getD []
    else []
  | _ => []

/-- `parseQuizQuestions` on a string (source lines 553–623): repair, parse,
dispatch; any parse failure is caught and yields `[]`. -/
def parseQuizQuestions (jr : String → Except Unit String) (g : Nat → List Char)
    (data : String) : List QOut :=
  match jsonParseS (aggressiveJSONRepair jr data) with
  | .error _ => []
  | .ok d => parseQuizQuestionsData g d

/-! ### The performance analyzer (`src/service/adaptiveQuizService.js`)

Pure embedding of `analyzePerformance` (lines 15–87),
`extractTopicFromQuestion` (lines 94–120) and the weak/mastered topic lists
of `generateAdaptivePrompt` (lines 143–163).  The stored-quiz list that the
source reads through `getStoredQuizzes()` is an explicit argument.
Correct-rates are exact rationals standing for the source's float division
(the comparisons with 0.8/0.4/0.6 agree for any realistic attempt count). -/

structure ScoreRec : Type where
  questionNumber : Int
  correct : Bool
deriving DecidableEq, Repr

structure QQn : Type where
  id : List Char
  question : List Char
deriving DecidableEq, Repr

structure QuizRec : Type where
  sourceDataId : Option (List Char)
  attempted : Bool
  timestamp : List Char
  quizQuestions : List QQn
  questionScores : Option (List ScoreRec)
deriving DecidableEq, Repr

structure PerfRec : Type where
  attempts : Nat
  correct : Nat
  difficulty : Nat
  questionIds : List (List Char)
deriving DecidableEq, Repr

structure IncorrectRec : Type where
  question : QQn
  attemptedAt : List Char
deriving DecidableEq, Repr

structure PerformanceProfile : Type where
  questionPerformance : List (List Char × PerfRec)
  incorrectQuestions : List IncorrectRec
  lastQuizTimestamp : List Char
deriving DecidableEq, Repr

def prependHeadW (c : Char) : List (List Char) → List (List Char)
  | [] => [[c]]
  | h :: r => (c :: h) :: r

mutual

/-- `String.prototype.split(/\W+/)`. -/
def jsSplitW : List Char → List (List Char)
  | [] => [[]]
  | c :: t => if wordC c then prependHeadW c (jsSplitW t) else [] :: skipSepW t

def skipSepW : List Char → List (List Char)
  | [] => [[]]
  | c :: t => if wordC c then prependHeadW c (jsSplitW t) else skipSepW t

end

def stopWords : List (List Char) :=
  ["what".data, "which".data, "how".data, "when".data, "where".data,
   "is".data, "are".data, "the".data, "a".data, "an".data, "in".data,
   "on".data, "at".data, "to".data, "for".data]

/-- `extractTopicFromQuestion`: first three non-stop words longer than two
characters of the lower-cased question text, joined by `_`; `"general"` when
empty. -/
def extractTopicFromQuestion (question : QQn) : List Char :=
  let text := question.question.map Char.toLower
  let words := jsSplitW text
  let filtered := words.filter fun w => w.length > 2 && ¬ stopWords.contains w
  let key := jsJoinCh '_' (filtered.take 3)
  if key.isEmpty then "general".data else key

def lookupA (l : List (List Char × PerfRec)) (k : List Char) : Option PerfRec :=
  match l with
  | [] => none
  | (k0, v0) :: t => if k0 = k then some v0 else lookupA t k

def upsertA (l : List (List Char × PerfRec)) (k : List Char) (v : PerfRec) :
    List (List Char × PerfRec) :=
  match l with
  | [] => [(k, v)]
  | (k0, v0) :: t => if k0 = k then (k0, v) :: t else (k0, v0) :: upsertA t k v

/-- Starting entry for a new topic (difficulty 1). -/
def perfInit : PerfRec := ⟨0, 0, 1, []⟩

/-- Processing of one recorded score (source lines 32–64). -/
def applyScore (quiz : QuizRec)
    (st : List (List Char × PerfRec) × List IncorrectRec) (score : ScoreRec) :
    List (List Char × PerfRec) × List IncorrectRec :=
  let idx := score.questionNumber - 1
  match (if 0 ≤ idx then quiz.quizQuestions.get? idx.toNat else none) with
  | none => st
  | some q =>
    let topic := extractTopicFromQuestion q
    let cur := (lookupA st.1 topic).getD perfInit
    let cur := { cur with
                 attempts := cur.attempts + 1,
                 correct := cur.correct + (if score.correct then 1 else 0) }
    let inc := if score.correct then st.2 else st.2 ++ [⟨q, quiz.timestamp⟩]
    let cur :=
      if cur.questionIds.contains q.id then cur
      else { cur with questionIds := cur.questionIds ++ [q.id] }
    (upsertA st.1 topic cur, inc)

def accumulatePerf (quizzes : List QuizRec) :
    List (List Char × PerfRec) × List IncorrectRec :=
  quizzes.foldl
    (fun st quiz => (quiz.questionScores.getD []).foldl (applyScore quiz) st)
    ([], [])

/-- The difficulty update of the final loop (source lines 68–80). -/
def updateDifficulty (r : PerfRec) : PerfRec :=
  let rate : ℚ := (r.correct : ℚ) / (r.attempts : ℚ)
  if rate > 4 / 5 ∧ r.attempts ≥ 3 then { r with difficulty := min 3 (r.difficulty + 1) }
  else if rate < 2 / 5 then { r with difficulty := max 1 (r.difficulty - 1) }
  else r

def relevantQuizzes (quizzes : List QuizRec) (sourceId : List Char) : List QuizRec :=
  quizzes.filter fun q => q.sourceDataId == some sourceId && q.attempted

/-- `analyzePerformance(sourceId)` (source lines 15–87), with the stored
quizzes passed explicitly. -/
def analyzePerformance (quizzes : List QuizRec) (sourceId : List Char) :
    Option PerformanceProfile :=
  match relevantQuizzes quizzes sourceId with
  | [] => none
  | q0 :: _ =>
    let acc := accumulatePerf (relevantQuizzes quizzes sourceId)
    some { questionPerformance := acc.1.map fun p => (p.1, updateDifficulty p.2),
           incorrectQuestions := acc.2,
           lastQuizTimestamp := q0.timestamp }

/-- The weak-topic list of `generateAdaptivePrompt` (source lines 143–145):
topics with correct-rate below 0.6, in map order. -/
def weakTopics (p : PerformanceProfile) : List (List Char) :=
  (p.questionPerformance.filter fun x =>
    ((x.2.correct : ℚ) / (x.2.attempts : ℚ) < 3 / 5 : Bool)).map (·.1)

/-- The mastered-topic list of `generateAdaptivePrompt` (source lines
159–163): correct-rate above 0.8 with at least 3 attempts. -/
def masteredTopics (p : PerformanceProfile) : List (List Char) :=
  (p.questionPerformance.filter fun x =>
    ((x.2.correct : ℚ) / (x.2.attempts : ℚ) > 4 / 5 ∧ x.2.attempts ≥ 3 : Bool)).map (·.1)

/-! ### The content-structurer result (`src/service/notesProcessingService.js`)

Pure embedding of the response-text processing of `processImageWithGemini`
(lines 96–232): JSON extraction from the model's text (fenced block first,
else the first-`{`-to-last-`}` span), the `notes_structure` normalization,
and the `AnalysisResult` construction with `structuredData: null` as the
degraded marker.  A JS object field holding `undefined` is modelled as an
omitted field. -/

structure AnalysisOut : Type where
  success : Bool
  description : List Char
  structuredData : Option Json
  fileName : List Char

/-- The `/\{[\s\S]*\}/` object span: first `{` to last `}`. -/
def braceSpanOf (cs : List Char) : Option (List Char) :=
  match idxOfCh lbraceC cs, lastIdxOfCh rbraceC cs with
  | some i, some j => if i < j then some (jsSub cs i (j + 1)) else none
  | _, _ => none

/-- JSON extraction from the response text (source lines 112–129): a fenced
block with non-empty contents is parsed (no fallback if that parse fails);
otherwise the brace span is parsed; `none` = no structured data. -/
def extractStructuredJson (rawText : List Char) : Option Json :=
  let objBranch : Option Json :=
    match braceSpanOf rawText with
    | some span => (jsonParse span).toOption
    | none => none
  match mfind reFence rawText with
  | some (_, _, g, _) =>
    if ¬ g.g1.isEmpty then (jsonParse g.g1).toOption else objBranch
  | none => objBranch

def jfield (name : List Char) (v : Option Json) : List (List Char × Json) :=
  match v with
  | some x => [(name, x)]
  | none => []

def orDefault (v : Option Json) (d : Json) : Json :=
  if jsTruthy v then v.getD d else d

/-- Concept node of the `notes_structure` transform (source lines 178–188). -/
def transformConcept (c : Json) : Json :=
  .obj (JObj.ofList
    (jfield "id".data (c.getF "id".data) ++
     jfield "name".data (c.getF "name".data) ++
     [("definition".data, orDefault (c.getF "definition".data) (.str []))] ++
     [("formulae".data, orDefault (c.getF "formulae".data) (.arr .nil))] ++
     [("examples".data, orDefault (c.getF "examples".data) (.arr .nil))] ++
     [("page_numbers".data, orDefault (c.getF "page_numbers".data) (.arr .nil))] ++
     jfield "source_note_line".data (c.getF "source_note_line".data)))

/-- Subtopic node of the transform (source lines 169–192). -/
def transformSubtopic (s : Json) : Json :=
  .obj (JObj.ofList
    (jfield "id".data (s.getF "id".data) ++
     jfield "title".data (s.getF "name".data) ++
     [("concepts".data,
       .arr (JArr.ofList
         (match s.getF "sub_items".data with
          | some (.arr l) => l.toList.map transformConcept
          | _ => [])))]))

/-- Topic node of the transform (source lines 160–196). -/
def transformTopic (t : Json) : Json :=
  .obj (JObj.ofList
    (jfield "id".data (t.getF "id".data) ++
     jfield "title".data (t.getF "name".data) ++
     [("subtopics".data,
       .arr (JArr.ofList
         (match t.getF "sub_items".data with
          | some (.arr l) => l.toList.map transformSubtopic
          | _ => [])))]))

/-- Shape normalization of the extracted JSON (source lines 150–210). -/
def normalizeNotesData (jd : Json) : Json :=
  match jd.getF "notes_structure".data with
  | some (.arr l) =>
    .obj (.cons "topics".data (.arr (JArr.ofList (l.toList.map transformTopic))) .nil)
  | _ =>
    if ¬ jsTruthy (jd.getF "topics".data) ∧ jd.isArr then
      .obj (.cons "topics".data jd .nil)
    else jd

/-- The `AnalysisResult` construction of `processImageWithGemini` from the
response text (source lines 96–232, after the HTTP call). -/
def processImageResponseText (rawText : List Char) (fileName : List Char) : AnalysisOut :=
  match extractStructuredJson rawText with
  | some jd =>
    { success := true, description := rawText,
      structuredData := some (normalizeNotesData jd), fileName := fileName }
  | none =>
    { success := true, description := rawText, structuredData := none,
      fileName := fileName }

/-! ### The storage service (`src/unnamed/part_011`, storageService)

`processQuizForStorage` doubles backslashes in the displayed question
strings before `localStorage` persistence, `processQuizzesFromStorage`
halves them on read; `storeQuizResult` appends the processed quiz (returning
the unprocessed one), `getStoredQuizzes` / `getStoredQuizById` read back
through the halving pass.  `Date.now()`-derived values are arguments; the
`JSON.parse(JSON.stringify(…))` deep clone is the identity on this
JSON-representable model, and localStorage round-trips are the identity. -/

structure StoredOpt : Type where
  id : List Char
  text : Option (List Char)
deriving DecidableEq, Repr

structure StoredQ : Type where
  id : Option (List Char)
  type : Option (List Char)
  topic : Option (List Char)
  correctAnswer : Option (List Char)
  question : Option (List Char)
  explanation : Option (List Char)
  options : Option (List StoredOpt)
  sampleAnswer : Option (List Char)
deriving DecidableEq, Repr

structure StoredQuiz : Type where
  id : Option (List Char)
  timestamp : Option (List Char)
  quizNumber : Option Int
  attempted : Bool
  rawText : Option (List Char)
  quizQuestions : Option (List StoredQ)
deriving DecidableEq, Repr

/-- `str.replace(/\\/g, "\\\\")` — double every backslash. -/
def doubleBS : List Char → List Char
  | [] => []
  | c :: t => if c = bslashC then bslashC :: bslashC :: doubleBS t else c :: doubleBS t

/-- `str.replace(/\\\\/g, "\\")` — halve backslash pairs, left to right. -/
def halveBS : List Char → List Char
  | [] => []
  | [c] => [c]
  | c :: c2 :: t =>
    if c = bslashC ∧ c2 = bslashC then bslashC :: halveBS t
    else c :: halveBS (c2 :: t)

/-- `if (question.field) question.field = f(question.field)`: absent and
empty strings are untouched. -/
def mapTruthyStr (f : List Char → List Char) : Option (List Char) → Option (List Char)
  | none => none
  | some s => if s.isEmpty then some s else some (f s)

def procQWith (f : List Char → List Char) (q : StoredQ) : StoredQ :=
  { q with
    question := mapTruthyStr f q.question,
    explanation := mapTruthyStr f q.explanation,
    options :=
      match q.options with
      | some l => some (l.map fun o => { o with text := mapTruthyStr f o.text })
      | none => none,
    sampleAnswer := mapTruthyStr f q.sampleAnswer }

/-- `processQuizForStorage` (part_011 lines 40–76). -/
def processQuizForStorage (quiz : StoredQuiz) : StoredQuiz :=
  match quiz.quizQuestions with
  | none => quiz
  | some qs => { quiz with quizQuestions := some (qs.map (procQWith doubleBS)) }

/-- `processQuizzesFromStorage` (part_011 lines 140–179). -/
def processQuizzesFromStorage (quizzes : List StoredQuiz) : List StoredQuiz :=
  quizzes.map fun quiz =>
    match quiz.quizQuestions with
    | none => quiz
    | some qs => { quiz with quizQuestions := some (qs.map (procQWith halveBS)) }

/-- `storeQuizResult` (part_011 lines 79–123): computes the next quiz
number, stamps id/timestamp on an id-less quiz, stores the
backslash-doubled version, returns the unprocessed one. -/
def storeQuizResult (quiz : StoredQuiz) (store : List StoredQuiz)
    (nowTs nowId : List Char) : StoredQuiz × List StoredQuiz :=
  let quizNumber : Int :=
    if store.isEmpty then 1
    else (store.foldl
      (fun h q =>
        match q.quizNumber with
        | some n => if n > h then n else h
        | none => h) 0) + 1
  let qwt :=
    if optTruthy quiz.id then quiz
    else { quiz with timestamp := some nowTs, id := some nowId,
                     quizNumber := some quizNumber }
  (qwt, store ++ [processQuizForStorage qwt])

/-- `getStoredQuizzes` (part_011 lines 182–192). -/
def getStoredQuizzes (store : List StoredQuiz) : List StoredQuiz :=
  processQuizzesFromStorage store

/-- `getStoredQuizById` (part_011 lines 208–225). -/
def getStoredQuizById (i : List Char) (store : List StoredQuiz) : Option StoredQuiz :=
  match store.find? (fun q => q.id == some i) with
  | some q => (processQuizzesFromStorage [q]).head?
  | none => none

/-! ### Concrete instances used by counterexamples and witnesses -/

/-- A fixed stand-in for the `Math.random` id generator. -/
def genR : Nat → List Char := fun _ => "rnd".data

/-- Helper for writing concrete `Json` values via the parser model. -/
def jval (s : String) : Json := (jsonParseS s).toOption.getD .null

/-- An mcq element whose explicit `correctAnswer` names no option id. -/
def c2Input : Json :=
  jval "[\x7b\"id\":\"q1\",\"type\":\"mcq\",\"question\":\"Q\",\"options\":[\x7b\"id\":\"a\",\"text\":\"A\"\x7d],\"correctAnswer\":\"z\"\x7d]"

/-- The normalizer's output on `c2Input`. -/
def c2Out : McqOut :=
  { id := "q1".data, type := "mcq".data, question := ['Q'],
    options := [⟨['a'], ['A']⟩], correctAnswer := ['z'], answer := none,
    explanation := [], topic := [] }

/-- A well-formed subjective question. -/
def c5Good : Json :=
  jval "\x7b\"id\":\"q1\",\"type\":\"subjective\",\"question\":\"E\",\"sampleAnswer\":\"S\"\x7d"

/-- The same question next to one unrecognized element (the number `5`). -/
def c5Batch : Json :=
  jval "[\x7b\"id\":\"q1\",\"type\":\"subjective\",\"question\":\"E\",\"sampleAnswer\":\"S\"\x7d,5]"

/-- A question with no type tag, no options and no correctAnswer. -/
def c6Input : Json := jval "\x7b\"question\":\"Explain X\"\x7d"

/-- Scenario 2 of the spec: a fenced, fully valid subjective question array. -/
def c7Input : String :=
  "```json\n[\x7b\"id\":\"q1\",\"type\":\"subjective\",\"question\":\"Explain X\"\x7d]\n```"

/-- An attempted quiz for source `src1`: three scored attempts on questions
whose topic key is `average_rate_change`, one of them correct. -/
def c8Quiz : QuizRec :=
  { sourceDataId := some "src1".data, attempted := true, timestamp := "T1".data,
    quizQuestions :=
      [⟨"q1".data, "What is the average rate of change for f?".data⟩,
       ⟨"q2".data, "What is the average rate of change for g?".data⟩,
       ⟨"q3".data, "What is the average rate of change for h?".data⟩],
    questionScores := some [⟨1, true⟩, ⟨2, false⟩, ⟨3, false⟩] }

/-- The aggregated record for `average_rate_change` after `c8Quiz`. -/
def c8Rec : PerfRec := ⟨3, 1, 1, ["q1".data, "q2".data, "q3".data]⟩

/-- The profile computed by `analyzePerformance [c8Quiz] "src1"`. -/
def c8Profile : PerformanceProfile :=
  { questionPerformance := [("average_rate_change".data, c8Rec)],
    incorrectQuestions :=
      [⟨⟨"q2".data, "What is the average rate of change for g?".data⟩, "T1".data⟩,
       ⟨⟨"q3".data, "What is the average rate of change for h?".data⟩, "T1".data⟩],
    lastQuizTimestamp := "T1".data }

/-- A stored quiz whose strings carry LaTeX backslashes. -/
def c10Quiz : StoredQuiz :=
  { id := some "quiz_9".data, timestamp := some "T".data, quizNumber := some 1,
    attempted := false, rawText := some "raw".data,
    quizQuestions := some
      [{ id := some "q1".data, type := some "mcq".data, topic := some "calc".data,
         correctAnswer := some ['a'],
         question := some "What is \\frac\x7b1\x7d\x7b2\x7d?".data,
         explanation := some "Use \\Delta x".data,
         options := some [⟨['a'], some "\\(x\\)".data⟩, ⟨['b'], none⟩],
         sampleAnswer := some [] }] }

/-! ## Theorems -/

/-! ### Storage round-trip lemmas (claim C10) -/

theorem doubleBS_ne_nil {s : List Char} (h : s ≠ []) : doubleBS s ≠ [] := by
  cases s with
  | nil => exact absurd rfl h
  | cons c t => unfold doubleBS; split <;> simp

theorem halveBS_cons2 (c c2 : Char) (t : List Char) :
    halveBS (c :: c2 :: t) =
      if c = bslashC ∧ c2 = bslashC then bslashC :: halveBS t
      else c :: halveBS (c2 :: t) := rfl

theorem halveBS_doubleBS (s : List Char) : halveBS (doubleBS s) = s := by
  induction s with
  | nil => rfl
  | cons c t ih =>
    by_cases hc : c = bslashC
    · subst hc
      show halveBS (bslashC :: bslashC :: doubleBS t) = _
      rw [halveBS_cons2, if_pos ⟨rfl, rfl⟩, ih]
    · show halveBS (if c = bslashC then _ else c :: doubleBS t) = c :: t
      rw [if_neg hc]
      cases hdt : doubleBS t with
      | nil =>
        have ht : t = [] := by
          cases t with
          | nil => rfl
          | cons a b => exact absurd hdt (by unfold doubleBS; split <;> simp)
        subst ht
        simp [halveBS]
      | cons c2 t2 =>
        rw [halveBS_cons2, if_neg (by simp [hc]), ← hdt, ih]

theorem mapTruthyStr_round (v : Option (List Char)) :
    mapTruthyStr halveBS (mapTruthyStr doubleBS v) = v := by
  cases v with
  | none => rfl
  | some s =>
    by_cases hs : s.isEmpty
    · simp [mapTruthyStr, hs]
    · have hne : s ≠ [] := by simpa using hs
      have hdne : ¬ (doubleBS s).isEmpty := by simpa using doubleBS_ne_nil hne
      simp [mapTruthyStr, hs, hdne, halveBS_doubleBS]

theorem procOpt_round (o : StoredOpt) :
    (fun o => { o with text := mapTruthyStr halveBS o.text })
      ((fun o => { o with text := mapTruthyStr doubleBS o.text }) o) = o := by
  cases o; simp [mapTruthyStr_round]

theorem procQWith_round (x : StoredQ) : procQWith halveBS (procQWith doubleBS x) = x := by
  cases x with
  | mk i ty top ca qn ex opts sa =>
    cases opts with
    | none => simp [procQWith, mapTruthyStr_round]
    | some l =>
      simp only [procQWith, mapTruthyStr_round, List.map_map]
      rw [show ((fun o => ({ id := o.id, text := mapTruthyStr halveBS o.text } : StoredOpt)) ∘
            fun o => ({ id := o.id, text := mapTruthyStr doubleBS o.text } : StoredOpt)) = id from
          funext fun o => by cases o; simp [mapTruthyStr_round], List.map_id]

theorem processFromTo (quiz : StoredQuiz) :
    processQuizzesFromStorage [processQuizForStorage quiz] = [quiz] := by
  cases quiz with
  | mk i ts n att raw qq =>
    cases qq with
    | none => rfl
    | some qs =>
      simp only [processQuizForStorage, processQuizzesFromStorage, List.map_cons,
        List.map_nil, List.map_map]
      rw [show (procQWith halveBS ∘ procQWith doubleBS) = id from
        funext fun x => procQWith_round x, List.map_id]

theorem processQuizForStorage_id (x : StoredQuiz) :
    (processQuizForStorage x).id = x.id := by
  unfold processQuizForStorage; split <;> rfl

theorem processQuizzesFromStorage_append (a b : List StoredQuiz) :
    processQuizzesFromStorage (a ++ b) =
      processQuizzesFromStorage a ++ processQuizzesFromStorage b := by
  simp [processQuizzesFromStorage]

/-- Claim C10: quiz persistence round-trips LaTeX backslashes.  Storing a
quiz (with a truthy id, so no fresh id/timestamp is stamped) and reading the
store back restores every question's `question`, `explanation`, option
`text` and `sampleAnswer` string exactly and leaves all other fields
unchanged — i.e. the read-back list ends with the original quiz, and (when
no stored quiz shares its id) `getStoredQuizById` returns the original quiz
verbatim. -/
theorem quiz_storage_roundtrip (q : StoredQuiz) (store : List StoredQuiz)
    (nowTs nowId : List Char) (hid : optTruthy q.id = true)
    (hfresh : ∀ p ∈ store, p.id ≠ q.id) :
    getStoredQuizzes (storeQuizResult q store nowTs nowId).2 =
      getStoredQuizzes store ++ [q] ∧
    getStoredQuizById (q.id.getD []) (storeQuizResult q store nowTs nowId).2 =
      some q := by
  have hsnd : (storeQuizResult q store nowTs nowId).2 =
      store ++ [processQuizForStorage q] := by
    simp [storeQuizResult, hid]
  obtain ⟨v, hv⟩ : ∃ v, q.id = some v := by
    cases hq : q.id with
    | none => rw [hq] at hid; exact absurd hid (by simp [optTruthy])
    | some v => exact ⟨v, rfl⟩
  constructor
  · rw [hsnd]
    unfold getStoredQuizzes
    rw [processQuizzesFromStorage_append, processFromTo]
  · rw [hsnd]
    unfold getStoredQuizById
    have hnone : store.find? (fun p => p.id == some (q.id.getD [])) = none := by
      rw [List.find?_eq_none]
      intro p hp
      have : p.id ≠ q.id := hfresh p hp
      simp only [hv, Option.getD_some]
      simpa [hv] using this
    have hfind : (store ++ [processQuizForStorage q]).find?
        (fun p => p.id == some (q.id.getD [])) = some (processQuizForStorage q) := by
      rw [List.find?_append, hnone]
      simp [processQuizForStorage_id, hv]
    rw [hfind]
    show (processQuizzesFromStorage [processQuizForStorage q]).head? = some q
    rw [processFromTo]
    rfl

/-- Witness for C10 at a concrete quiz carrying LaTeX backslashes. -/
theorem quiz_storage_roundtrip_witness :
    optTruthy c10Quiz.id = true ∧
    getStoredQuizzes (storeQuizResult c10Quiz [] "TS".data "ID".data).2 =
      getStoredQuizzes [] ++ [c10Quiz] := by
  refine ⟨by decide, ?_⟩
  exact (quiz_storage_roundtrip c10Quiz [] "TS".data "ID".data (by decide)
    (fun p hp => absurd hp (List.not_mem_nil p))).1

/-! ### Structurer fallback (claim C9) -/

/-- Claim C9: when the structuring response text has no fenced code block
and its brace-delimited span (if any) does not parse, the constructed
`AnalysisResult` does not throw: it carries `structuredData = null` and
preserves the raw response text as `description`. -/
theorem structurer_fallback (rawText fileName : List Char)
    (hfence : mfind reFence rawText = none)
    (hbrace : ∀ span, braceSpanOf rawText = some span → (jsonParse span).toOption = none) :
    (processImageResponseText rawText fileName).structuredData = none ∧
    (processImageResponseText rawText fileName).description = rawText := by
  have hex : extractStructuredJson rawText = none := by
    unfold extractStructuredJson
    rw [hfence]
    cases hb : braceSpanOf rawText with
    | none => rfl
    | some span => simpa using hbrace span hb
  unfold processImageResponseText
  rw [hex]
  exact ⟨rfl, rfl⟩

/-- Witness for C9 at the concrete response text "hello world". -/
theorem structurer_fallback_witness :
    mfind reFence "hello world".data = none ∧
    (processImageResponseText "hello world".data "notes.png".data).structuredData = none := by
  refine ⟨by rfl, ?_⟩
  exact (structurer_fallback "hello world".data "notes.png".data (by rfl)
    (fun span h => by
      rw [show braceSpanOf "hello world".data = none from rfl] at h
      cases h)).1

/-! ### Performance analyzer lemmas (claim C8) -/

theorem lookupA_mem {l : List (List Char × PerfRec)} {k : List Char} {r : PerfRec}
    (h : lookupA l k = some r) : (k, r) ∈ l := by
  induction l with
  | nil => cases h
  | cons p t ih =>
    obtain ⟨k0, v0⟩ := p
    unfold lookupA at h
    by_cases hk : k0 = k
    · rw [if_pos hk] at h
      cases h
      subst hk
      exact List.mem_cons_self _ _
    · rw [if_neg hk] at h
      exact List.mem_cons_of_mem _ (ih h)

theorem mem_upsertA {l : List (List Char × PerfRec)} {k t : List Char} {v r : PerfRec}
    (h : (t, r) ∈ upsertA l k v) : (t = k ∧ r = v) ∨ (t, r) ∈ l := by
  induction l with
  | nil =>
    unfold upsertA at h
    rcases List.mem_singleton.mp h with h2
    exact Or.inl ⟨congrArg Prod.fst h2, congrArg Prod.snd h2⟩
  | cons p tl ih =>
    obtain ⟨k0, v0⟩ := p
    unfold upsertA at h
    by_cases hk : k0 = k
    · rw [if_pos hk] at h
      rcases List.mem_cons.mp h with h2 | h2
      · exact Or.inl ⟨hk ▸ congrArg Prod.fst h2, congrArg Prod.snd h2⟩
      · exact Or.inr (List.mem_cons_of_mem _ h2)
    · rw [if_neg hk] at h
      rcases List.mem_cons.mp h with h2 | h2
      · exact Or.inr (h2 ▸ List.mem_cons_self _ _)
      · rcases ih h2 with h3 | h3
        · exact Or.inl h3
        · exact Or.inr (List.mem_cons_of_mem _ h3)

/-- Invariant: before the final difficulty pass every topic entry carries
the starting difficulty 1. -/
def DiffOne (l : List (List Char × PerfRec)) : Prop :=
  ∀ p ∈ l, (p : List Char × PerfRec).2.difficulty = 1

theorem applyScore_diffOne (quiz : QuizRec)
    (st : List (List Char × PerfRec) × List IncorrectRec) (score : ScoreRec)
    (h : DiffOne st.1) : DiffOne (applyScore quiz st score).1 := by
  have hcur : ∀ tp, ((lookupA st.1 tp).getD perfInit).difficulty = 1 := by
    intro tp
    cases hl : lookupA st.1 tp with
    | none => rfl
    | some r0 => simpa using h _ (lookupA_mem hl)
  simp only [applyScore]
  split
  · exact h
  · intro p hp
    obtain ⟨t, r⟩ := p
    rcases mem_upsertA hp with ⟨_, hr⟩ | hmem
    · subst hr
      split <;> simpa using hcur _
    · exact h _ hmem

theorem foldl_preserve {α β : Type} (P : β → Prop) (f : β → α → β)
    (hf : ∀ b a, P b → P (f b a)) : ∀ (l : List α) (b : β), P b → P (List.foldl f b l) := by
  intro l
  induction l with
  | nil => intro b hb; exact hb
  | cons a t ih => intro b hb; exact ih _ (hf b a hb)

theorem accumulatePerf_diffOne (quizzes : List QuizRec) :
    DiffOne (accumulatePerf quizzes).1 := by
  unfold accumulatePerf
  exact foldl_preserve
    (fun (st : List (List Char × PerfRec) × List IncorrectRec) => DiffOne st.1)
    (fun st quiz => (quiz.questionScores.getD []).foldl (applyScore quiz) st)
    (fun b a hb =>
      foldl_preserve (fun st => DiffOne st.1) (applyScore a)
        (fun b2 a2 hb2 => applyScore_diffOne a b2 a2 hb2) _ b hb)
    quizzes ([], []) (fun p hp => by cases hp)

theorem updateDifficulty_attempts (r : PerfRec) :
    (updateDifficulty r).attempts = r.attempts := by
  simp only [updateDifficulty]
  split
  · rfl
  · split <;> rfl

theorem updateDifficulty_correct (r : PerfRec) :
    (updateDifficulty r).correct = r.correct := by
  simp only [updateDifficulty]
  split
  · rfl
  · split <;> rfl

theorem updateDifficulty_one {r : PerfRec} (h : r.difficulty = 1) :
    (updateDifficulty r).difficulty =
      if (r.correct : ℚ) / (r.attempts : ℚ) > 4 / 5 ∧ r.attempts ≥ 3 then 2 else 1 := by
  simp only [updateDifficulty]
  split
  · show 3 ⊓ (r.difficulty + 1) = 2
    rw [h]
    decide
  · split
    · show 1 ⊔ (r.difficulty - 1) = 1
      rw [h]
      decide
    · exact h

/-- Claim C8: in the profile returned by the performance analyzer, the
difficulty of every topic follows the fixed thresholds — correct-rate above
0.8 with at least 3 attempts raises it from the default 1 to 2 (the cap 3 is
not reached in one pass), a rate below 0.4 floors it at 1, anything else
leaves the default 1 — and every topic with correct-rate below 0.6 is listed
among the weak topics spliced into the adaptive prompt. -/
theorem perf_difficulty_thresholds (quizzes : List QuizRec) (sid topic : List Char)
    (rec : PerfRec) (p : PerformanceProfile)
    (hp : analyzePerformance quizzes sid = some p)
    (hmem : (topic, rec) ∈ p.questionPerformance) :
    rec.difficulty =
      (if (rec.correct : ℚ) / (rec.attempts : ℚ) > 4 / 5 ∧ rec.attempts ≥ 3 then 2 else 1) ∧
    ((rec.correct : ℚ) / (rec.attempts : ℚ) < 3 / 5 → topic ∈ weakTopics p) := by
  constructor
  · -- unfold the analyzer result into the accumulator map
    unfold analyzePerformance at hp
    cases hrel : relevantQuizzes quizzes sid with
    | nil => rw [hrel] at hp; cases hp
    | cons q0 rest =>
      rw [hrel] at hp
      have hqp : p.questionPerformance =
          (accumulatePerf (q0 :: rest)).1.map
            (fun p => (p.1, updateDifficulty p.2)) := by
        cases hp; rfl
      rw [hqp] at hmem
      obtain ⟨⟨t0, r0⟩, hm0, heq⟩ := List.mem_map.mp hmem
      have ht : t0 = topic := congrArg Prod.fst heq
      have hr : updateDifficulty r0 = rec := congrArg Prod.snd heq
      have hro : r0.difficulty = 1 :=
        accumulatePerf_diffOne (q0 :: rest) _ hm0
      rw [← hr, updateDifficulty_one hro, updateDifficulty_attempts,
        updateDifficulty_correct]
  · intro hrate
    unfold weakTopics
    refine List.mem_map.mpr ⟨(topic, rec), ?_, rfl⟩
    refine List.mem_filter.mpr ⟨hmem, ?_⟩
    simpa using hrate

/-- Witness for C8: three attempts, one correct, on topic
`average_rate_change` — difficulty stays floored at 1 and the topic is
listed weak. -/
theorem perf_difficulty_thresholds_witness :
    c8Rec.difficulty = 1 ∧ "average_rate_change".data ∈ weakTopics c8Profile := by
  have hup : updateDifficulty ⟨3, 1, 1, ["q1".data, "q2".data, "q3".data]⟩ = c8Rec := by
    simp only [updateDifficulty]
    split
    · rename_i hcond
      exact absurd hcond (by norm_num)
    · split
      · decide
      · rename_i h1 h2
        exact absurd (by norm_num : ((1 : ℕ) : ℚ) / ((3 : ℕ) : ℚ) < 2 / 5)
          (by simpa using h2)
  have hana : analyzePerformance [c8Quiz] "src1".data = some c8Profile := by
    have hrel : relevantQuizzes [c8Quiz] "src1".data = [c8Quiz] := by decide
    have hacc : accumulatePerf [c8Quiz] =
        ([("average_rate_change".data, ⟨3, 1, 1, ["q1".data, "q2".data, "q3".data]⟩)],
         c8Profile.incorrectQuestions) := by decide
    unfold analyzePerformance
    rw [hrel, hacc]
    simp [hup, c8Profile, c8Quiz]
  have h := perf_difficulty_thresholds [c8Quiz] "src1".data "average_rate_change".data
    c8Rec c8Profile hana (by decide)
  refine ⟨?_, h.2 (by norm_num [c8Rec])⟩
  rw [h.1]
  rw [if_neg (by norm_num [c8Rec])]

/-! ### Normalizer lemmas (claims C2, C5, C6) -/

theorem mcqTransform_options_ne (g : Nat → List Char) (k : Nat) (r : McqRec) :
    (mcqTransform g k r).options ≠ [] := by
  simp only [mcqTransform]
  show (if r.options.isEmpty then defaultOptions else r.options) ≠ []
  split
  · decide
  · rename_i hne
    simpa using hne

theorem mcqParse_shape {g : Nat → List Char} {k : Nat} {j : Json} {m : McqOut}
    (h : mcqQuestionSchemaParse g k j = some m) : ∃ r, m = mcqTransform g k r := by
  unfold mcqQuestionSchemaParse at h
  obtain ⟨r, _, hr⟩ := Option.map_eq_some'.mp h
  exact ⟨r, hr.symm⟩

theorem questionSchema_mcq {g : Nat → List Char} {k : Nat} {j : Json} {m : McqOut}
    (h : questionSchemaParse g k j = some (QOut.mcq m)) :
    mcqQuestionSchemaParse g k j = some m := by
  unfold questionSchemaParse at h
  cases hm : mcqQuestionSchemaParse g k j with
  | some m0 =>
    rw [hm] at h
    cases h
    rfl
  | none =>
    rw [hm] at h
    cases hs : subjectiveQuestionSchemaParse g k j with
    | none => rw [hs] at h; cases h
    | some s => rw [hs] at h; exact absurd h (by simp)

theorem questionsArray_mcq_opts {g : Nat → List Char} :
    ∀ {l : List Json} {k : Nat} {ql : List QOut},
      questionsArraySchemaParse g k l = some ql →
      ∀ m : McqOut, QOut.mcq m ∈ ql → m.options ≠ [] := by
  intro l
  induction l with
  | nil =>
    intro k ql h m hm
    cases h
    cases hm
  | cons j t ih =>
    intro k ql h m hm
    unfold questionsArraySchemaParse at h
    cases hq : questionSchemaParse g k j with
    | none => rw [hq] at h; cases h
    | some q =>
      rw [hq] at h
      obtain ⟨tl, htl, rfl⟩ := Option.map_eq_some'.mp h
      rcases List.mem_cons.mp hm with rfl | hmem
      · obtain ⟨r, hr⟩ := mcqParse_shape (questionSchema_mcq hq)
        rw [hr]
        exact mcqTransform_options_ne g k r
      · exact ih htl m hmem

theorem parseQuizQuestionsData_mcq_opts (g : Nat → List Char) (y : Json) :
    ∀ m : McqOut, QOut.mcq m ∈ parseQuizQuestionsData g y → m.options ≠ [] := by
  intro m hm
  cases y with
  | arr l =>
    simp only [parseQuizQuestionsData] at hm
    cases hq : questionsArraySchemaParse g 0 l.toList with
    | none => rw [hq] at hm; cases hm
    | some ql =>
      rw [hq] at hm
      exact questionsArray_mcq_opts hq m hm
  | obj fs =>
    simp only [parseQuizQuestionsData] at hm
    by_cases h1 : jsTruthy (fs.getF "quiz".data) = true
    · rw [if_pos h1] at hm
      simp only [quizObjectSchemaParse] at hm
      split at hm
      · rename_i l hl
        cases hq : questionsArraySchemaParse g 0 l.toList with
        | none => rw [hq] at hm; cases hm
        | some ql =>
          rw [hq] at hm
          exact questionsArray_mcq_opts hq m hm
      · simp at hm
    · rw [if_neg h1] at hm
      by_cases h2 : jsTruthy (fs.getF "quizQuestions".data) = true
      · rw [if_pos h2] at hm
        split at hm
        · rename_i l hl
          cases hq : questionsArraySchemaParse g 0 l.toList with
          | none => rw [hq] at hm; cases hm
          | some ql =>
            rw [hq] at hm
            exact questionsArray_mcq_opts hq m hm
        · simp at hm
      · rw [if_neg h2] at hm
        cases hm
  | null => simp only [parseQuizQuestionsData] at hm; cases hm
  | bool b => simp only [parseQuizQuestionsData] at hm; cases hm
  | num lex => simp only [parseQuizQuestionsData] at hm; cases hm
  | str s => simp only [parseQuizQuestionsData] at hm; cases hm

/-- Counterexample to claim C2 as stated: an mcq input carrying an explicit
`correctAnswer` `"z"` and options with ids `["a"]` normalizes with
`correctAnswer = "z"`, which is not the id of any of its options (the
normalizer never validates membership). -/
theorem normalizer_correctAnswer_cex :
    parseQuizQuestionsData genR c2Input = [QOut.mcq c2Out] ∧
    c2Out.correctAnswer = "z".data ∧
    c2Out.options.map McqOption.id = [['a']] ∧
    ¬ c2Out.correctAnswer ∈ c2Out.options.map McqOption.id := by
  refine ⟨by decide, by decide, by decide, by decide⟩

/-- Claim C2, amended: normalization never throws and every resulting mcq
has a non-empty options list; when the parsed options are missing or empty
the transform fabricates the four placeholder options, and when
`correctAnswer` (and the legacy `answer`) is missing or empty it defaults to
the first option's id (hence matches an option); a provided non-empty
`correctAnswer` is kept verbatim even when it matches no option id. -/
theorem normalizer_mcq_invariants (g : Nat → List Char) (y : Json) :
    (∀ m : McqOut, QOut.mcq m ∈ parseQuizQuestionsData g y → m.options ≠ []) ∧
    (∀ (k : Nat) (r : McqRec), r.options = [] →
      (mcqTransform g k r).options = defaultOptions) ∧
    (∀ (k : Nat) (r : McqRec), optTruthy r.correctAnswer = false →
      optTruthy r.answer = false →
      (mcqTransform g k r).correctAnswer = headOptId (mcqTransform g k r).options) := by
  refine ⟨parseQuizQuestionsData_mcq_opts g y, ?_, ?_⟩
  · intro k r hr
    simp [mcqTransform, hr]
  · intro k r hca hans
    simp [mcqTransform, hca, hans]

/-- Witness for the amended C2 at a concrete input. -/
theorem normalizer_mcq_invariants_witness :
    QOut.mcq c2Out ∈ parseQuizQuestionsData genR c2Input ∧ c2Out.options ≠ [] := by
  have hmem : QOut.mcq c2Out ∈ parseQuizQuestionsData genR c2Input := by decide
  exact ⟨hmem, (normalizer_mcq_invariants genR c2Input).1 c2Out hmem⟩

/-- Counterexample to claim C5 as stated: one unrecognized element (the
number `5`) makes the normalizer return `[]`, discarding the well-formed
subjective question next to it (which is kept when normalized alone). -/
theorem normalizer_batch_cex :
    parseQuizQuestionsData genR c5Batch = [] ∧
    parseQuizQuestionsData genR (Json.arr (JArr.cons c5Good JArr.nil)) ≠ [] := by
  refine ⟨by decide, by decide⟩

theorem toList_ofList (l : List Json) : (JArr.ofList l).toList = l := by
  induction l with
  | nil => rfl
  | cons h t ih => simp [JArr.ofList, JArr.toList, ih]

/-- Claim C5, amended: `z.array` is all-or-nothing — if any element of the
batch is rejected by the question union (for every id generator), the whole
batch is discarded and the normalizer returns `[]`; only a fully recognized
array is returned. -/
theorem normalizer_batch_discard (g : Nat → List Char) (elems : List Json)
    (j : Json) (hj : j ∈ elems)
    (hfail : ∀ (g' : Nat → List Char) (k : Nat), questionSchemaParse g' k j = none) :
    parseQuizQuestionsData g (Json.arr (JArr.ofList elems)) = [] := by
  have harr : ∀ (l : List Json), j ∈ l → ∀ k, questionsArraySchemaParse g k l = none := by
    intro l
    induction l with
    | nil => intro h; cases h
    | cons a t ih =>
      intro hmem k
      unfold questionsArraySchemaParse
      rcases List.mem_cons.mp hmem with rfl | hmem2
      · rw [hfail g k]
      · cases ha : questionSchemaParse g k a with
        | none => rfl
        | some q => rw [ih hmem2 (k + 1)]; rfl
  simp only [parseQuizQuestionsData, toList_ofList, harr elems hj 0, Option.getD_none]

/-- Witness for the amended C5 at the concrete mixed batch. -/
theorem normalizer_batch_discard_witness :
    parseQuizQuestionsData genR (Json.arr (JArr.ofList [c5Good, Json.num ['5']])) = [] := by
  exact normalizer_batch_discard genR [c5Good, Json.num ['5']] (Json.num ['5'])
    (List.mem_cons_of_mem c5Good (List.mem_cons_self _ _)) (fun g' k => rfl)

/-- Counterexample to claim C6 as stated: a question with no type tag, no
options and no correctAnswer normalizes as an mcq (with fabricated
options), not as a subjective question. -/
theorem normalizer_untyped_cex :
    (parseQuizQuestionsData genR (Json.arr (JArr.cons c6Input JArr.nil))).map QOut.isMcq
      = [true] := by decide

/-- Claim C6, amended: a type-less question is never inferred subjective by
presence of options/correctAnswer — the mcq alternative of the union is
tried first and accepts any object whose declared mcq fields validate, so an
untyped question with neither options nor correctAnswer still normalizes as
an mcq with the four fabricated options and correctAnswer `"a"`; the
subjective alternative is reached only when the mcq base parse rejects. -/
theorem normalizer_untyped_mcq (g : Nat → List Char) (k : Nat) (s : List Char) :
    questionSchemaParse g k (Json.obj (JObj.cons "question".data (Json.str s) JObj.nil)) =
      some (QOut.mcq
        { id := 'q' :: g k, type := "mcq".data, question := s,
          options := defaultOptions, correctAnswer := ['a'], answer := none,
          explanation := [], topic := [] }) := rfl

/-! ### Repair-engine concrete evaluations (claims C3, C4, C7)

In each of these runs every string handed to the `jsonrepair` pass of the
engine is checked below; for C3 and C4 it is already valid JSON at that
point, where the modelled library (like the real one) passes it through
unchanged, so these evaluations are independent of the model's behaviour on
invalid input. -/

set_option maxRecDepth 100000

/-- Counterexample to claim C3 as stated: the valid JSON input
`{"a":1}` is not returned unchanged — there is no direct-parse shortcut in
`aggressiveJSONRepair`; the object is wrapped into a one-element array. -/
theorem repair_not_identity_cex :
    (jsonParseS "\x7b\"a\":1\x7d").toOption.isSome = true ∧
    aggressiveJSONRepair jsonrepairModel "\x7b\"a\":1\x7d" = "[\x7b\"a\":1\x7d]" ∧
    aggressiveJSONRepair jsonrepairModel "\x7b\"a\":1\x7d" ≠ "\x7b\"a\":1\x7d" := by
  refine ⟨by decide, by decide, by decide⟩

/-- Counterexample to claim C4 as stated: repair is not idempotent.  On the
valid JSON array `["x,,]"]` (a one-string array whose string contains
`,,]`), the trailing-comma rewrite `/,\s*\]/ → "]"` fires inside the string
literal once per pass: the first pass returns `["x,]"]` and a second pass
rewrites that again to `["x]"]`.  Every intermediate string is valid JSON
when it reaches the `jsonrepair` pass, which therefore passes it through
unchanged, exactly like the real library. -/
theorem repair_not_idempotent_cex :
    aggressiveJSONRepair jsonrepairModel "[\"x,,]\"]" = "[\"x,]\"]" ∧
    aggressiveJSONRepair jsonrepairModel (aggressiveJSONRepair jsonrepairModel "[\"x,,]\"]") =
      "[\"x]\"]" ∧
    aggressiveJSONRepair jsonrepairModel (aggressiveJSONRepair jsonrepairModel "[\"x,,]\"]") ≠
      aggressiveJSONRepair jsonrepairModel "[\"x,,]\"]" := by
  refine ⟨by decide, by decide, by decide⟩

/-- Claim C7's failing input, evaluated: on the fenced, fully valid
subjective-question array of spec Scenario 2, the repair engine's
"ensure quotes within strings are escaped" rewrite
(`/"([^"\\]*)"([^"]*")/ → '"$1\"$2'`) corrupts the payload
(`"id":"q1"` becomes `"id\":"q1`, and so on for every other key), every
subsequent parse fails, the emergency block scan recovers nothing, and
`parseQuizQuestions` returns `[]` instead of the claimed single subjective
question. -/
theorem scenario2_returns_empty :
    parseQuizQuestions jsonrepairModel genR c7Input = [] := by decide

/-! ### Parser metatheory: whitespace, prefixes, string bodies -/

theorem skipWs_cons_nws {c : Char} (cs : List Char) (h : jsonWs c = false) :
    skipWs (c :: cs) = c :: cs := by
  simp [skipWs, h]

theorem skipWs_idem (cs : List Char) : skipWs (skipWs cs) = skipWs cs := by
  induction cs with
  | nil => rfl
  | cons c t ih =>
    by_cases h : jsonWs c
    · simpa [skipWs, h] using ih
    · simp [skipWs, h]

theorem skipWs_append_ne {a : List Char} (b : List Char) (h : skipWs a ≠ []) :
    skipWs (a ++ b) = skipWs a ++ b := by
  induction a with
  | nil => exact absurd rfl h
  | cons c t ih =>
    by_cases hc : jsonWs c
    · simp only [skipWs, hc, if_true] at h
      simpa [skipWs, hc] using ih h
    · simp [skipWs, hc]

theorem skipWs_append_empty {a : List Char} (b : List Char) (h : skipWs a = []) :
    skipWs (a ++ b) = skipWs b := by
  induction a with
  | nil => rfl
  | cons c t ih =>
    by_cases hc : jsonWs c
    · simp only [skipWs, hc, if_true] at h
      simpa [skipWs, hc] using ih h
    · simp [skipWs, hc] at h

theorem parseVal_skipWs (f : Nat) (cs : List Char) :
    parseVal f (skipWs cs) = parseVal f cs := by
  cases f with
  | zero => rfl
  | succ f => simp only [parseVal, skipWs_idem]

theorem dropPfx_append {p cs r : List Char} (t : List Char)
    (h : dropPfx p cs = some r) : dropPfx p (cs ++ t) = some (r ++ t) := by
  induction p generalizing cs r with
  | nil =>
    simp only [dropPfx, Option.some.injEq] at h
    subst h; rfl
  | cons p ps ih =>
    match cs with
    | [] => exact absurd h (by simp [dropPfx])
    | c :: cs1 =>
      simp only [dropPfx] at h ⊢
      by_cases hp : p = c
      · rw [if_pos hp] at h ⊢; exact ih h
      · rw [if_neg hp] at h; cases h

theorem parseStrBody_append {acc cs s r : List Char} (t : List Char)
    (h : parseStrBody acc cs = .ok (s, r)) :
    parseStrBody acc (cs ++ t) = .ok (s, r ++ t) := by
  induction acc, cs using parseStrBody.induct generalizing s r <;>
    (rw [parseStrBody.eq_def] at h ⊢) <;> (try simp_all [bslashC]) <;>
    (rw [if_neg (by omega)] at h ⊢; rename_i ih; exact ih h)

/-! ### Number lexeme scanning lemmas -/

theorem digitSpan_eq {cs ds r : List Char} (h : digitSpan cs = (ds, r)) :
    cs = ds ++ r ∧ (∀ c ∈ ds, c.isDigit) ∧ ∀ c, r.head? = some c → ¬ c.isDigit := by
  induction cs generalizing ds r with
  | nil =>
    simp only [digitSpan] at h
    cases h; simp
  | cons c t ih =>
    rw [digitSpan.eq_def] at h
    by_cases hc : c.isDigit
    · simp only [hc, if_true] at h
      rcases hd : digitSpan t with ⟨d, r0⟩
      rw [hd] at h
      cases h
      obtain ⟨h1, h2, h3⟩ := ih hd
      refine ⟨by simp [h1], ?_, h3⟩
      intro x hx
      rcases List.mem_cons.mp hx with hx | hx
      · exact hx ▸ hc
      · exact h2 x hx
    · simp only [hc, if_false] at h
      cases h
      exact ⟨rfl, by simp, fun x hx => by simp at hx; subst hx; exact hc⟩

theorem digitSpan_self {ds : List Char} (t : List Char) (hds : ∀ c ∈ ds, c.isDigit)
    (ht : ∀ c, t.head? = some c → ¬ c.isDigit) : digitSpan (ds ++ t) = (ds, t) := by
  induction ds with
  | nil =>
    cases t with
    | nil => rfl
    | cons c t2 =>
      rw [digitSpan.eq_def]
      simp [ht c rfl]
  | cons c d ih =>
    rw [digitSpan.eq_def]
    simp only [List.cons_append, hds c (by simp), if_true]
    rw [ih (fun x hx => hds x (by simp [hx]))]

theorem digitSpan_append {cs ds r : List Char} (t : List Char) (h : digitSpan cs = (ds, r))
    (hr : r = [] → ∀ c, t.head? = some c → ¬ c.isDigit) :
    digitSpan (cs ++ t) = (ds, r ++ t) := by
  obtain ⟨h1, h2, h3⟩ := digitSpan_eq h
  subst h1
  rw [List.append_assoc]
  refine digitSpan_self _ h2 ?_
  cases r with
  | nil => simpa using hr rfl
  | cons c r2 => simpa using h3 c rfl

theorem numSafe_noDig {t : List Char} (h : numSafe t) :
    ∀ c, t.head? = some c → ¬ c.isDigit :=
  fun c hc hd => h c hc (Or.inl hd)

theorem scanIntP_parts {cs i r : List Char} (h : scanIntP cs = some (i, r)) :
    cs = i ++ r ∧ (∃ c0 i2, i = c0 :: i2 ∧ c0.isDigit) ∧
    (∀ t, (∀ c, t.head? = some c → ¬ c.isDigit) → scanIntP (i ++ t) = some (i, t)) ∧
    (∀ t, (r = [] → numSafe t) → scanIntP (cs ++ t) = some (i, r ++ t)) := by
  cases cs with
  | nil => exact absurd h (by simp [scanIntP])
  | cons c t =>
    simp only [scanIntP.eq_def] at h
    by_cases hc0 : c = '0'
    · rw [if_pos hc0] at h
      simp only [Option.some.injEq, Prod.mk.injEq] at h
      obtain ⟨hi, hr⟩ := h
      subst hc0; subst hr
      refine ⟨by simp [← hi], ⟨'0', [], by simp [← hi], by decide⟩, ?_, ?_⟩
      · intro t2 _
        rw [← hi]
        simp [scanIntP.eq_def]
      · intro t2 _
        rw [← hi, List.cons_append]
        simp [scanIntP.eq_def]
    · rw [if_neg hc0] at h
      by_cases hcd : c.isDigit
      · rw [if_pos hcd] at h
        rcases hd : digitSpan t with ⟨ds, r0⟩
        rw [hd] at h
        simp only [Option.some.injEq, Prod.mk.injEq] at h
        obtain ⟨hi, hr⟩ := h
        subst hi; subst hr
        obtain ⟨hteq, hdig, hstop⟩ := digitSpan_eq hd
        refine ⟨by simp [hteq], ⟨c, ds, rfl, hcd⟩, ?_, ?_⟩
        · intro t2 ht2
          rw [List.cons_append]
          simp only [scanIntP.eq_def]
          rw [if_neg hc0, if_pos hcd, digitSpan_self t2 hdig ht2]
        · intro t2 ht2
          rw [List.cons_append]
          simp only [scanIntP.eq_def]
          rw [if_neg hc0, if_pos hcd,
            digitSpan_append t2 hd (fun he => numSafe_noDig (ht2 he))]
      · rw [if_neg hcd] at h
        cases h

theorem scanFracP_nodot {u : List Char} (hu : ∀ c, u.head? = some c → c ≠ '.') :
    scanFracP u = some ([], u) := by
  cases u with
  | nil => rfl
  | cons c u2 =>
    rw [scanFracP.eq_def]
    split
    · rename_i t heq
      cases heq
      exact absurd rfl (hu '.' rfl)
    · rfl

theorem scanFracP_parts {cs f r : List Char} (h : scanFracP cs = some (f, r)) :
    cs = f ++ r ∧
    (∀ c, f.head? = some c → c = '.') ∧
    (∀ t, (∀ c, t.head? = some c → ¬ c.isDigit ∧ c ≠ '.') →
      scanFracP (f ++ t) = some (f, t)) ∧
    (∀ t, (r = [] → numSafe t) → scanFracP (cs ++ t) = some (f, r ++ t)) := by
  rcases hdot : cs.head? with _ | c0
  case some _ =>
    by_cases hc : c0 = '.'
    case pos =>
      subst hc
      cases cs with
      | nil => cases hdot
      | cons c t =>
        simp only [List.head?_cons, Option.some.injEq] at hdot
        subst hdot
        simp only [scanFracP.eq_def] at h
        rcases hd : digitSpan t with ⟨ds, r0⟩
        rw [hd] at h
        cases ds with
        | nil => simp at h
        | cons d ds2 =>
          simp only [Option.some.injEq, Prod.mk.injEq] at h
          obtain ⟨hf, hr⟩ := h
          subst hf; subst hr
          obtain ⟨hteq, hdig, hstop⟩ := digitSpan_eq hd
          refine ⟨by simp [hteq], fun c hc => by simpa using hc.symm, ?_, ?_⟩
          · intro t2 ht2
            rw [List.cons_append]
            simp only [scanFracP.eq_def]
            rw [digitSpan_self t2 hdig (fun c hc => (ht2 c hc).1)]
          · intro t2 ht2
            rw [List.cons_append]
            simp only [scanFracP.eq_def]
            rw [digitSpan_append t2 hd (fun he => numSafe_noDig (ht2 he))]
    case neg =>
      have hne : ∀ c, cs.head? = some c → c ≠ '.' := by
        intro c hcc
        rw [hdot] at hcc
        cases hcc
        exact hc
      rw [scanFracP_nodot hne] at h
      simp only [Option.some.injEq, Prod.mk.injEq] at h
      obtain ⟨hf, hr⟩ := h
      subst hf; subst hr
      refine ⟨rfl, by simp, ?_, ?_⟩
      · intro t2 ht2
        exact scanFracP_nodot (fun c hc => (ht2 c hc).2)
      · intro t2 _
        refine scanFracP_nodot ?_
        intro c hcc
        refine hne c ?_
        cases cs with
        | nil => cases hdot
        | cons a u => simpa using hcc
  case none =>
    cases cs with
    | cons a u => cases hdot
    | nil =>
      simp only [scanFracP] at h
      simp only [Option.some.injEq, Prod.mk.injEq] at h
      obtain ⟨hf, hr⟩ := h
      subst hf; subst hr
      refine ⟨rfl, by simp, ?_, ?_⟩
      · intro t2 ht2
        exact scanFracP_nodot (fun c hc => (ht2 c hc).2)
      · intro t2 ht2
        refine scanFracP_nodot ?_
        intro c hcc
        intro hdoteq
        subst hdoteq
        exact (ht2 rfl) '.' hcc (by simp [numCont])

theorem scanExpP_noexp {u : List Char} (hu : ∀ c, u.head? = some c → ¬(c = 'e' ∨ c = 'E')) :
    scanExpP u = some ([], u) := by
  cases u with
  | nil => rfl
  | cons c u2 =>
    simp only [scanExpP.eq_def]
    rw [if_neg (hu c rfl)]

theorem digit_not_sign {c : Char} (h : c.isDigit) : ¬(c = '+' ∨ c = '-') := by
  rintro (rfl | rfl) <;> simp [Char.isDigit] at h

theorem scanExpP_parts {cs e r : List Char} (h : scanExpP cs = some (e, r)) :
    cs = e ++ r ∧
    (∀ c, e.head? = some c → (c = 'e' ∨ c = 'E')) ∧
    (∀ t, (∀ c, t.head? = some c → ¬ c.isDigit ∧ ¬(c = 'e' ∨ c = 'E')) →
      scanExpP (e ++ t) = some (e, t)) ∧
    (∀ t, (r = [] → numSafe t) → scanExpP (cs ++ t) = some (e, r ++ t)) := by
  cases cs with
  | nil =>
    simp only [scanExpP, Option.some.injEq, Prod.mk.injEq] at h
    obtain ⟨hf, hr⟩ := h
    subst hf; subst hr
    refine ⟨rfl, by simp, ?_, ?_⟩
    · intro t2 ht2
      exact scanExpP_noexp (fun c hc => (ht2 c hc).2)
    · intro t2 ht2
      refine scanExpP_noexp ?_
      intro c hcc hor
      rcases hor with rfl | rfl
      · exact (ht2 rfl) 'e' hcc (by simp [numCont])
      · exact (ht2 rfl) 'E' hcc (by simp [numCont])
  | cons c t =>
    by_cases hce : c = 'e' ∨ c = 'E'
    · simp only [scanExpP.eq_def] at h
      rw [if_pos hce] at h
      cases t with
      | nil =>
        simp [scanSgn, digitSpan] at h
      | cons s t3 =>
        by_cases hs : s = '+' ∨ s = '-'
        · rw [show scanSgn (s :: t3) = ([s], t3) from by simp [scanSgn, hs]] at h
          rcases hd : digitSpan t3 with ⟨ds, r0⟩
          rw [hd] at h
          cases ds with
          | nil => simp at h
          | cons d ds2 =>
            simp only [Option.some.injEq, Prod.mk.injEq] at h
            obtain ⟨hf, hr⟩ := h
            subst hf; subst hr
            obtain ⟨hteq, hdig, hstop⟩ := digitSpan_eq hd
            refine ⟨by simp [hteq], fun x hx => by simp at hx; subst hx; exact hce,
              ?_, ?_⟩
            · intro t2 ht2
              have hds : digitSpan (d :: (ds2 ++ t2)) = (d :: ds2, t2) := by
                simpa using digitSpan_self t2 hdig (fun x hx => (ht2 x hx).1)
              simp [scanExpP.eq_def, scanSgn, hce, hs, hds]
            · intro t2 ht2
              simp [scanExpP.eq_def, scanSgn, hce, hs,
                digitSpan_append t2 hd (fun he => numSafe_noDig (ht2 he))]
        · rw [show scanSgn (s :: t3) = ([], s :: t3) from by simp [scanSgn, hs]] at h
          rcases hd : digitSpan (s :: t3) with ⟨ds, r0⟩
          rw [hd] at h
          cases ds with
          | nil => simp at h
          | cons d ds2 =>
            simp only [Option.some.injEq, Prod.mk.injEq] at h
            obtain ⟨hf, hr⟩ := h
            subst hf; subst hr
            obtain ⟨hteq, hdig, hstop⟩ := digitSpan_eq hd
            refine ⟨by simpa using hteq, fun x hx => by simp at hx; subst hx; exact hce,
              ?_, ?_⟩
            · intro t2 ht2
              have hds : digitSpan (d :: (ds2 ++ t2)) = (d :: ds2, t2) := by
                simpa using digitSpan_self t2 hdig (fun x hx => (ht2 x hx).1)
              simp [scanExpP.eq_def, scanSgn, hce,
                digit_not_sign (hdig d (by simp)), hds]
            · intro t2 ht2
              have hda : digitSpan (s :: (t3 ++ t2)) = (d :: ds2, r0 ++ t2) := by
                simpa using digitSpan_append t2 hd (fun he => numSafe_noDig (ht2 he))
              simp [scanExpP.eq_def, scanSgn, hce, hs, hda]
    · simp only [scanExpP.eq_def] at h
      rw [if_neg hce] at h
      simp only [Option.some.injEq, Prod.mk.injEq] at h
      obtain ⟨hf, hr⟩ := h
      subst hf; subst hr
      refine ⟨rfl, by simp, ?_, ?_⟩
      · intro t2 ht2
        exact scanExpP_noexp (fun x hx => (ht2 x hx).2)
      · intro t2 _
        simp only [List.nil_append, List.cons_append, scanExpP.eq_def]
        rw [if_neg hce]

theorem digit_ne_dash {c : Char} (h : c.isDigit) : ¬ c = '-' := by
  rintro rfl; simp [Char.isDigit] at h

theorem scanSign_dash (u : List Char) : scanSign ('-' :: u) = (['-'], u) := rfl

theorem scanSign_nodash {u : List Char} (hu : ∀ c, u.head? = some c → ¬ c = '-') :
    scanSign u = ([], u) := by
  cases u with
  | nil => rfl
  | cons c u2 =>
    rw [scanSign.eq_def]
    split
    · rename_i t heq
      cases heq
      exact absurd rfl (hu '-' rfl)
    · rfl

theorem numSafe_chain3 {t : List Char} (ht : numSafe t) :
    ∀ x, t.head? = some x → ¬ x.isDigit ∧ ¬(x = 'e' ∨ x = 'E') := by
  intro x hx
  have := ht x hx
  exact ⟨fun hd => this (Or.inl hd),
    fun hor => this (by rcases hor with rfl | rfl <;> simp [numCont])⟩

theorem headChain2 {e t : List Char}
    (he : ∀ c, e.head? = some c → (c = 'e' ∨ c = 'E')) (ht : numSafe t) :
    ∀ x, (e ++ t).head? = some x → ¬ x.isDigit ∧ ¬ x = '.' := by
  intro x hx
  cases e with
  | cons b e2 =>
    simp only [List.cons_append, List.head?_cons, Option.some.injEq] at hx
    subst hx
    rcases he b rfl with rfl | rfl <;> exact ⟨by decide, by decide⟩
  | nil =>
    simp only [List.nil_append] at hx
    have := ht x hx
    exact ⟨fun hd => this (Or.inl hd), fun hd => this (by subst hd; simp [numCont])⟩

theorem headChain1 {f e t : List Char}
    (hf : ∀ c, f.head? = some c → c = '.')
    (he : ∀ c, e.head? = some c → (c = 'e' ∨ c = 'E')) (ht : numSafe t) :
    ∀ x, (f ++ (e ++ t)).head? = some x → ¬ x.isDigit := by
  intro x hx
  cases f with
  | cons a f2 =>
    simp only [List.cons_append, List.head?_cons, Option.some.injEq] at hx
    subst hx
    rw [hf a rfl]
    decide
  | nil =>
    simp only [List.nil_append] at hx
    exact (headChain2 he ht x hx).1

theorem scanNumLex_parts {cs lex r : List Char} (h : scanNumLex cs = some (lex, r)) :
    cs = lex ++ r ∧
    (∀ t, numSafe t → scanNumLex (lex ++ t) = some (lex, t)) ∧
    (∀ t, (r = [] → numSafe t) → scanNumLex (cs ++ t) = some (lex, r ++ t)) := by
  cases cs with
  | nil => simp [scanNumLex, scanSign, scanIntP] at h
  | cons c t0 =>
    by_cases hcm : c = '-'
    · subst hcm
      simp only [scanNumLex, scanSign_dash] at h
      rcases hip : scanIntP t0 with _ | ⟨i, r1⟩
      · simp [hip] at h
      simp only [hip] at h
      rcases hfp : scanFracP r1 with _ | ⟨f, r2⟩
      · simp [hfp] at h
      simp only [hfp] at h
      rcases hep : scanExpP r2 with _ | ⟨e, r3⟩
      · simp [hep] at h
      simp only [hep] at h
      simp only [Option.some.injEq, Prod.mk.injEq] at h
      obtain ⟨hlex, hr⟩ := h
      subst hr
      subst hlex
      obtain ⟨hieq, ⟨c0, i2, hi0, hc0d⟩, ipRe, ipExt⟩ := scanIntP_parts hip
      obtain ⟨hfeq, fhead, fpRe, fpExt⟩ := scanFracP_parts hfp
      obtain ⟨heeq, ehead, epRe, epExt⟩ := scanExpP_parts hep
      refine ⟨by subst hieq hfeq heeq; simp, ?_, ?_⟩
      · intro t2 hts
        have h1 := ipRe (f ++ (e ++ t2)) (headChain1 fhead ehead hts)
        have h2 := fpRe (e ++ t2) (headChain2 ehead hts)
        have h3 := epRe t2 (numSafe_chain3 hts)
        simp only [scanNumLex, List.cons_append, List.append_assoc, List.nil_append,
          scanSign_dash, h1, h2, h3]
      · intro t2 hts
        have hre : r1 = [] → numSafe t2 := by
          intro h0
          rw [hfeq] at h0
          rcases List.append_eq_nil.mp h0 with ⟨hf0, h20⟩
          rw [heeq] at h20
          exact hts (List.append_eq_nil.mp h20).2
        have hre2 : r2 = [] → numSafe t2 := by
          intro h0
          rw [heeq] at h0
          exact hts (List.append_eq_nil.mp h0).2
        have h1 := ipExt t2 hre
        have h2 := fpExt t2 hre2
        have h3 := epExt t2 hts
        simp only [scanNumLex, List.cons_append, scanSign_dash, h1, h2, h3]
    · have hnd : ∀ x, (c :: t0).head? = some x → ¬ x = '-' := by
        intro x hx
        simp only [List.head?_cons, Option.some.injEq] at hx
        subst hx; exact hcm
      simp only [scanNumLex, scanSign_nodash hnd] at h
      rcases hip : scanIntP (c :: t0) with _ | ⟨i, r1⟩
      · simp [hip] at h
      simp only [hip] at h
      rcases hfp : scanFracP r1 with _ | ⟨f, r2⟩
      · simp [hfp] at h
      simp only [hfp] at h
      rcases hep : scanExpP r2 with _ | ⟨e, r3⟩
      · simp [hep] at h
      simp only [hep] at h
      simp only [Option.some.injEq, Prod.mk.injEq] at h
      obtain ⟨hlex, hr⟩ := h
      subst hr
      subst hlex
      obtain ⟨hieq, ⟨c0, i2, hi0, hc0d⟩, ipRe, ipExt⟩ := scanIntP_parts hip
      obtain ⟨hfeq, fhead, fpRe, fpExt⟩ := scanFracP_parts hfp
      obtain ⟨heeq, ehead, epRe, epExt⟩ := scanExpP_parts hep
      refine ⟨by rw [hieq, hfeq, heeq]; simp, ?_, ?_⟩
      · intro t2 hts
        have h1 := ipRe (f ++ (e ++ t2)) (headChain1 fhead ehead hts)
        have h2 := fpRe (e ++ t2) (headChain2 ehead hts)
        have h3 := epRe t2 (numSafe_chain3 hts)
        have hnd2 : ∀ x, (([] ++ i ++ f ++ e) ++ t2).head? = some x → ¬ x = '-' := by
          intro x hx
          rw [hi0] at hx
          simp only [List.nil_append, List.cons_append, List.head?_cons,
            Option.some.injEq] at hx
          subst hx
          exact digit_ne_dash hc0d
        simp only [scanNumLex, scanSign_nodash hnd2]
        rw [show ([] ++ i ++ f ++ e) ++ t2 = i ++ (f ++ (e ++ t2)) from by simp]
        simp only [h1, h2, h3]
      · intro t2 hts
        have hre : r1 = [] → numSafe t2 := by
          intro h0
          rw [hfeq] at h0
          rcases List.append_eq_nil.mp h0 with ⟨hf0, h20⟩
          rw [heeq] at h20
          exact hts (List.append_eq_nil.mp h20).2
        have hre2 : r2 = [] → numSafe t2 := by
          intro h0
          rw [heeq] at h0
          exact hts (List.append_eq_nil.mp h0).2
        have h1 : scanIntP (c :: (t0 ++ t2)) = some (i, r1 ++ t2) := by
          simpa using ipExt t2 hre
        have h2 := fpExt t2 hre2
        have h3 := epExt t2 hts
        have hnd3 : ∀ x, (c :: (t0 ++ t2)).head? = some x → ¬ x = '-' := by
          intro x hx
          simp only [List.head?_cons, Option.some.injEq] at hx
          subst hx; exact hcm
        simp only [scanNumLex, List.cons_append, scanSign_nodash hnd3, h1, h2, h3]

theorem numSafe_rbrack : numSafe [']'] := by
  intro c hc
  simp only [List.head?_cons, Option.some.injEq] at hc
  subst hc
  rintro (h | h | h | h | h | h) <;> exact absurd h (by decide)

theorem parseFields_nil (f : Nat) (acc : JObj) : parseFields f [] acc = .error .eof := by
  cases f <;> rfl

theorem skipWs_ne_of_eq {cs rest : List Char} {c : Char} (h : skipWs cs = c :: rest) :
    skipWs cs ≠ [] := by
  rw [h]; simp

theorem skipWs_append_cons {cs rest : List Char} {c : Char} (t : List Char)
    (h : skipWs cs = c :: rest) : skipWs (cs ++ t) = c :: (rest ++ t) := by
  rw [skipWs_append_ne t (skipWs_ne_of_eq h), h]
  rfl

set_option maxHeartbeats 1000000

theorem parseExt : ∀ f : Nat,
    (∀ {cs : List Char} {v : Json} {r : List Char}, parseVal f cs = .ok (v, r) →
      ∀ k, parseVal (f + k) (cs ++ [']']) = .ok (v, r ++ [']'])) ∧
    (∀ {cs : List Char} {acc : List Json} {v : Json} {r : List Char},
      parseElems f cs acc = .ok (v, r) →
      ∀ k, parseElems (f + k) (cs ++ [']']) acc = .ok (v, r ++ [']'])) ∧
    (∀ {cs : List Char} {acc : JObj} {v : Json} {r : List Char},
      parseFields f cs acc = .ok (v, r) →
      ∀ k, parseFields (f + k) (cs ++ [']']) acc = .ok (v, r ++ [']'])) := by
  intro f
  induction f with
  | zero =>
    refine ⟨?_, ?_, ?_⟩
    · intro cs v r h k; simp [parseVal] at h
    · intro cs acc v r h k; simp [parseElems] at h
    · intro cs acc v r h k; simp [parseFields] at h
  | succ n ih =>
    obtain ⟨ih1, ih2, ih3⟩ := ih
    refine ⟨?_, ?_, ?_⟩
    · -- parseVal
      intro cs v r h k
      rw [show n + 1 + k = (n + k) + 1 from by omega]
      rcases hsw : skipWs cs with _ | ⟨c, rest⟩
      · rw [parseVal.eq_def] at h
        simp only [hsw] at h
        cases h
      have hsw2 := skipWs_append_cons [']'] hsw
      rw [parseVal.eq_def] at h ⊢
      simp only [hsw, hsw2] at h ⊢
      by_cases hq : c = '"'
      · rw [if_pos hq] at h ⊢
        rcases hb : parseStrBody [] rest with e | ⟨s, r0⟩ <;> simp only [hb] at h
        · cases h
        cases h
        simp only [parseStrBody_append [']'] hb]
      · rw [if_neg hq] at h ⊢
        by_cases hbr : c = lbraceC
        · rw [if_pos hbr] at h ⊢
          rcases hsw3 : skipWs rest with _ | ⟨c2, r2⟩
          · simp only [hsw3] at h; cases h
          simp only [hsw3, skipWs_append_cons [']'] hsw3] at h ⊢
          by_cases hc2 : c2 = rbraceC
          · rw [if_pos hc2] at h ⊢
            cases h
            rfl
          · rw [if_neg hc2] at h ⊢
            exact ih3 h k
        · rw [if_neg hbr] at h ⊢
          by_cases hbk : c = '['
          · rw [if_pos hbk] at h ⊢
            rcases hsw3 : skipWs rest with _ | ⟨c2, r2⟩
            · simp only [hsw3] at h; cases h
            simp only [hsw3, skipWs_append_cons [']'] hsw3] at h ⊢
            by_cases hc2 : c2 = ']'
            · rw [if_pos hc2] at h ⊢
              cases h
              rfl
            · rw [if_neg hc2] at h ⊢
              exact ih2 h k
          · rw [if_neg hbk] at h ⊢
            by_cases ht : c = 't'
            · rw [if_pos ht] at h ⊢
              rcases hd : dropPfx ['t', 'r', 'u', 'e'] (c :: rest) with _ | rr <;>
                simp only [hd] at h
              · cases h
              cases h
              have hda := dropPfx_append [']'] hd
              rw [List.cons_append] at hda
              simp only [hda]
            · rw [if_neg ht] at h ⊢
              by_cases hf : c = 'f'
              · rw [if_pos hf] at h ⊢
                rcases hd : dropPfx ['f', 'a', 'l', 's', 'e'] (c :: rest) with _ | rr <;>
                  simp only [hd] at h
                · cases h
                cases h
                have hda := dropPfx_append [']'] hd
                rw [List.cons_append] at hda
                simp only [hda]
              · rw [if_neg hf] at h ⊢
                by_cases hn : c = 'n'
                · rw [if_pos hn] at h ⊢
                  rcases hd : dropPfx ['n', 'u', 'l', 'l'] (c :: rest) with _ | rr <;>
                    simp only [hd] at h
                  · cases h
                  cases h
                  have hda := dropPfx_append [']'] hd
                  rw [List.cons_append] at hda
                  simp only [hda]
                · rw [if_neg hn] at h ⊢
                  by_cases hnum : c = '-' ∨ c.isDigit
                  · rw [if_pos hnum] at h ⊢
                    rcases hs : scanNumLex (c :: rest) with _ | ⟨lex, rr⟩ <;>
                      simp only [hs] at h
                    · cases h
                    cases h
                    obtain ⟨_, _, sExt⟩ := scanNumLex_parts hs
                    have hse := sExt [']'] (fun _ => numSafe_rbrack)
                    rw [List.cons_append] at hse
                    simp only [hse]
                  · rw [if_neg hnum] at h
                    cases h
    · -- parseElems
      intro cs acc v r h k
      rw [show n + 1 + k = (n + k) + 1 from by omega]
      rw [parseElems.eq_def] at h ⊢
      rcases hv : parseVal n cs with e | ⟨v0, r0⟩ <;> simp only [hv] at h
      · cases h
      simp only [ih1 hv k]
      rcases hsw : skipWs r0 with _ | ⟨c, r2⟩
      · simp only [hsw] at h; cases h
      simp only [hsw, skipWs_append_cons [']'] hsw] at h ⊢
      by_cases hc : c = ','
      · rw [if_pos hc] at h ⊢
        exact ih2 h k
      · rw [if_neg hc] at h ⊢
        by_cases hcb : c = ']'
        · rw [if_pos hcb] at h ⊢
          cases h
          rfl
        · rw [if_neg hcb] at h
          cases h
    · -- parseFields
      intro cs acc v r h k
      rw [show n + 1 + k = (n + k) + 1 from by omega]
      match cs with
      | [] =>
        simp only [parseFields] at h
        cases h
      | c :: rest =>
      simp only [parseFields] at h ⊢
      simp only [List.cons_append]
      by_cases hq : c = '"'
      · rw [if_pos hq] at h ⊢
        rcases hb : parseStrBody [] rest with e | ⟨kk, r1⟩ <;> simp only [hb] at h
        · cases h
        simp only [parseStrBody_append [']'] hb]
        rcases hsw : skipWs r1 with _ | ⟨c2, r2⟩
        · simp only [hsw] at h; cases h
        simp only [hsw, skipWs_append_cons [']'] hsw] at h ⊢
        by_cases hcol : c2 = ':'
        · rw [if_pos hcol] at h ⊢
          rcases hv : parseVal n r2 with e | ⟨v0, r3⟩ <;> simp only [hv] at h
          · cases h
          simp only [ih1 hv k]
          rcases hsw4 : skipWs r3 with _ | ⟨c3, r4⟩
          · simp only [hsw4] at h; cases h
          simp only [hsw4, skipWs_append_cons [']'] hsw4] at h ⊢
          by_cases hcm : c3 = ','
          · rw [if_pos hcm] at h ⊢
            have hne : skipWs r4 ≠ [] := by
              intro h0
              rw [h0, parseFields_nil] at h
              cases h
            rw [skipWs_append_ne [']'] hne]
            exact ih3 h k
          · rw [if_neg hcm] at h ⊢
            by_cases hcr : c3 = rbraceC
            · rw [if_pos hcr] at h ⊢
              cases h
              rfl
            · rw [if_neg hcr] at h
              cases h
        · rw [if_neg hcol] at h
          cases h
      · rw [if_neg hq] at h
        cases h

/-! ### Parsed values are well-formed -/

theorem WFj_null : WFj .null := by simp [WFj]

theorem WFj_bool (b : Bool) : WFj (.bool b) := by simp [WFj]

theorem WFj_str (s : List Char) : WFj (.str s) := by simp [WFj]

theorem WFj_num {lex : List Char} (h : NumWF lex) : WFj (.num lex) := by
  simpa [WFj] using h

theorem WFj_arr {l : JArr} (h : WFA l) : WFj (.arr l) := by simpa [WFj] using h

theorem WFj_obj {o : JObj} (h : WFO o) : WFj (.obj o) := by simpa [WFj] using h

theorem WFj_arr_elim {l : JArr} (h : WFj (.arr l)) : WFA l := by simpa [WFj] using h

theorem WFj_obj_elim {o : JObj} (h : WFj (.obj o)) : WFO o := by simpa [WFj] using h

theorem WFj_num_elim {lex : List Char} (h : WFj (.num lex)) : NumWF lex := by
  simpa [WFj] using h

theorem getF_insF_ne {k k0 : List Char} {v : Json} (h : ¬ k = k0) :
    ∀ o : JObj, (o.insF k v).getF k0 = o.getF k0
  | .nil => by simp [JObj.insF, JObj.getF, h]
  | .cons k1 v1 t => by
    by_cases hk : k1 = k
    · subst hk
      simp [JObj.insF, JObj.getF, h]
    · simp [JObj.insF, JObj.getF, hk, getF_insF_ne h t]

theorem WFO_insF {k : List Char} {v : Json} (hv : WFj v) :
    ∀ o : JObj, WFO o → WFO (o.insF k v)
  | .nil, _ => ⟨hv, trivial, rfl⟩
  | .cons k1 v1 t, ho => by
    obtain ⟨hv1, ht, hn⟩ := ho
    by_cases hk : k1 = k
    · subst hk
      simp only [JObj.insF, if_pos rfl]
      exact ⟨hv, ht, hn⟩
    · simp only [JObj.insF, if_neg hk]
      refine ⟨hv1, WFO_insF hv t ht, ?_⟩
      rw [getF_insF_ne (fun he => hk he.symm)]
      exact hn

theorem WFA_ofList {l : List Json} (h : ∀ x ∈ l, WFj x) : WFA (JArr.ofList l) := by
  induction l with
  | nil => trivial
  | cons a t ih =>
    exact ⟨h a (by simp), ih (fun x hx => h x (by simp [hx]))⟩

theorem getF_WF {k : List Char} {q : Json} :
    ∀ o : JObj, WFO o → o.getF k = some q → WFj q
  | .nil, _, h => by simp [JObj.getF] at h
  | .cons k1 v1 t, ho, h => by
    obtain ⟨hv1, ht, _⟩ := ho
    by_cases hk : k1 = k
    · simp only [JObj.getF, if_pos hk, Option.some.injEq] at h
      exact h ▸ hv1
    · simp only [JObj.getF, if_neg hk] at h
      exact getF_WF t ht h

theorem parseWF : ∀ f : Nat,
    (∀ {cs : List Char} {v : Json} {r : List Char},
      parseVal f cs = .ok (v, r) → WFj v) ∧
    (∀ {cs : List Char} {acc : List Json} {v : Json} {r : List Char},
      parseElems f cs acc = .ok (v, r) → (∀ x ∈ acc, WFj x) → WFj v) ∧
    (∀ {cs : List Char} {acc : JObj} {v : Json} {r : List Char},
      parseFields f cs acc = .ok (v, r) → WFO acc → WFj v) := by
  intro f
  induction f with
  | zero =>
    refine ⟨?_, ?_, ?_⟩
    · intro cs v r h; simp [parseVal] at h
    · intro cs acc v r h; simp [parseElems] at h
    · intro cs acc v r h; simp [parseFields] at h
  | succ n ih =>
    obtain ⟨ih1, ih2, ih3⟩ := ih
    refine ⟨?_, ?_, ?_⟩
    · -- parseVal
      intro cs v r h
      rcases hsw : skipWs cs with _ | ⟨c, rest⟩
      · rw [parseVal.eq_def] at h
        simp only [hsw] at h
        cases h
      rw [parseVal.eq_def] at h
      simp only [hsw] at h
      by_cases hq : c = '"'
      · rw [if_pos hq] at h
        rcases hb : parseStrBody [] rest with e | ⟨s, r0⟩ <;> simp only [hb] at h
        · cases h
        cases h
        exact WFj_str s
      · rw [if_neg hq] at h
        by_cases hbr : c = lbraceC
        · rw [if_pos hbr] at h
          rcases hsw3 : skipWs rest with _ | ⟨c2, r2⟩
          · simp only [hsw3] at h; cases h
          simp only [hsw3] at h
          by_cases hc2 : c2 = rbraceC
          · rw [if_pos hc2] at h
            cases h
            exact WFj_obj trivial
          · rw [if_neg hc2] at h
            exact ih3 h trivial
        · rw [if_neg hbr] at h
          by_cases hbk : c = '['
          · rw [if_pos hbk] at h
            rcases hsw3 : skipWs rest with _ | ⟨c2, r2⟩
            · simp only [hsw3] at h; cases h
            simp only [hsw3] at h
            by_cases hc2 : c2 = ']'
            · rw [if_pos hc2] at h
              cases h
              exact WFj_arr trivial
            · rw [if_neg hc2] at h
              exact ih2 h (by simp)
          · rw [if_neg hbk] at h
            by_cases ht : c = 't'
            · rw [if_pos ht] at h
              rcases hd : dropPfx ['t', 'r', 'u', 'e'] (c :: rest) with _ | rr <;>
                simp only [hd] at h
              · cases h
              cases h
              exact WFj_bool true
            · rw [if_neg ht] at h
              by_cases hf : c = 'f'
              · rw [if_pos hf] at h
                rcases hd : dropPfx ['f', 'a', 'l', 's', 'e'] (c :: rest) with _ | rr <;>
                  simp only [hd] at h
                · cases h
                cases h
                exact WFj_bool false
              · rw [if_neg hf] at h
                by_cases hn : c = 'n'
                · rw [if_pos hn] at h
                  rcases hd : dropPfx ['n', 'u', 'l', 'l'] (c :: rest) with _ | rr <;>
                    simp only [hd] at h
                  · cases h
                  cases h
                  exact WFj_null
                · rw [if_neg hn] at h
                  by_cases hnum : c = '-' ∨ c.isDigit
                  · rw [if_pos hnum] at h
                    rcases hs : scanNumLex (c :: rest) with _ | ⟨lex, rr⟩ <;>
                      simp only [hs] at h
                    · cases h
                    cases h
                    exact WFj_num (scanNumLex_parts hs).2.1
                  · rw [if_neg hnum] at h
                    cases h
    · -- parseElems
      intro cs acc v r h hacc
      rw [parseElems.eq_def] at h
      rcases hv : parseVal n cs with e | ⟨v0, r0⟩ <;> simp only [hv] at h
      · cases h
      rcases hsw : skipWs r0 with _ | ⟨c, r2⟩
      · simp only [hsw] at h; cases h
      simp only [hsw] at h
      by_cases hc : c = ','
      · rw [if_pos hc] at h
        refine ih2 h ?_
        intro x hx
        rcases List.mem_append.mp hx with hx | hx
        · exact hacc x hx
        · simp only [List.mem_singleton] at hx
          exact hx ▸ ih1 hv
      · rw [if_neg hc] at h
        by_cases hcb : c = ']'
        · rw [if_pos hcb] at h
          cases h
          refine WFj_arr (WFA_ofList ?_)
          intro x hx
          rcases List.mem_append.mp hx with hx | hx
          · exact hacc x hx
          · simp only [List.mem_singleton] at hx
            exact hx ▸ ih1 hv
        · rw [if_neg hcb] at h
          cases h
    · -- parseFields
      intro cs acc v r h hacc
      match cs with
      | [] =>
        simp only [parseFields] at h
        cases h
      | c :: rest =>
      simp only [parseFields] at h
      by_cases hq : c = '"'
      · rw [if_pos hq] at h
        rcases hb : parseStrBody [] rest with e | ⟨kk, r1⟩ <;> simp only [hb] at h
        · cases h
        rcases hsw : skipWs r1 with _ | ⟨c2, r2⟩
        · simp only [hsw] at h; cases h
        simp only [hsw] at h
        by_cases hcol : c2 = ':'
        · rw [if_pos hcol] at h
          rcases hv : parseVal n r2 with e | ⟨v0, r3⟩ <;> simp only [hv] at h
          · cases h
          rcases hsw4 : skipWs r3 with _ | ⟨c3, r4⟩
          · simp only [hsw4] at h; cases h
          simp only [hsw4] at h
          by_cases hcm : c3 = ','
          · rw [if_pos hcm] at h
            exact ih3 h (WFO_insF (ih1 hv) _ hacc)
          · rw [if_neg hcm] at h
            by_cases hcr : c3 = rbraceC
            · rw [if_pos hcr] at h
              cases h
              exact WFj_obj (WFO_insF (ih1 hv) _ hacc)
            · rw [if_neg hcr] at h
              cases h
        · rw [if_neg hcol] at h
          cases h
      · rw [if_neg hq] at h
        cases h

theorem jsonParse_WF {cs : List Char} {v : Json} (h : jsonParse cs = .ok v) : WFj v := by
  unfold jsonParse at h
  rcases hpv : parseVal (parseFuel cs) cs with e | ⟨v0, r⟩ <;> rw [hpv] at h
  · cases e <;> simp at h
  rcases hsw : skipWs r with _ | ⟨c, r2⟩ <;> simp only [hsw] at h
  · cases h
    exact (parseWF (parseFuel cs)).1 hpv
  · cases h

/-! ### Stringify round-trip prerequisites -/

theorem numSafe_nil : numSafe [] := fun _ h => by cases h

theorem numSafe_cons {c : Char} (h : ¬ numCont c) (l : List Char) : numSafe (c :: l) := by
  intro x hx
  simp only [List.head?_cons, Option.some.injEq] at hx
  subst hx
  exact h

theorem digit_ne {c x : Char} (hd : c.isDigit) (hx : x.isDigit = false) : ¬ c = x :=
  fun he => by subst he; rw [hd] at hx; cases hx

theorem digit_not_ws {c : Char} (hd : c.isDigit) : jsonWs c = false := by
  by_contra h
  rw [Bool.not_eq_false] at h
  simp only [jsonWs, Bool.or_eq_true, decide_eq_true_eq] at h
  rcases h with ((rfl | rfl) | rfl) | rfl <;> simp [Char.isDigit] at hd

theorem dropPfx_self : ∀ (p rest : List Char), dropPfx p (p ++ rest) = some rest
  | [], _ => rfl
  | c :: p, rest => by simp [dropPfx, dropPfx_self p rest]

theorem ofList_toList : ∀ t : JArr, JArr.ofList t.toList = t
  | .nil => rfl
  | .cons h t => by simp [JArr.toList, JArr.ofList, ofList_toList t]

theorem hexVal_hexDig {n : Nat} (h : n < 16) : hexVal (hexDig n) = some n := by
  interval_cases n <;> decide

theorem scanNumLex_head {cs lex r : List Char} (h : scanNumLex cs = some (lex, r)) :
    ∃ c0 t0, lex = c0 :: t0 ∧ (c0 = '-' ∨ c0.isDigit) := by
  cases cs with
  | nil => simp [scanNumLex, scanSign, scanIntP] at h
  | cons c t0 =>
    by_cases hcm : c = '-'
    · subst hcm
      simp only [scanNumLex, scanSign_dash] at h
      rcases hip : scanIntP t0 with _ | ⟨i, r1⟩
      · simp [hip] at h
      simp only [hip] at h
      rcases hfp : scanFracP r1 with _ | ⟨f, r2⟩
      · simp [hfp] at h
      simp only [hfp] at h
      rcases hep : scanExpP r2 with _ | ⟨e, r3⟩
      · simp [hep] at h
      simp only [hep] at h
      simp only [Option.some.injEq, Prod.mk.injEq] at h
      exact ⟨'-', i ++ f ++ e, by rw [← h.1]; simp, Or.inl rfl⟩
    · have hnd : ∀ x, (c :: t0).head? = some x → ¬ x = '-' := by
        intro x hx
        simp only [List.head?_cons, Option.some.injEq] at hx
        subst hx; exact hcm
      simp only [scanNumLex, scanSign_nodash hnd] at h
      rcases hip : scanIntP (c :: t0) with _ | ⟨i, r1⟩
      · simp [hip] at h
      simp only [hip] at h
      rcases hfp : scanFracP r1 with _ | ⟨f, r2⟩
      · simp [hfp] at h
      simp only [hfp] at h
      rcases hep : scanExpP r2 with _ | ⟨e, r3⟩
      · simp [hep] at h
      simp only [hep] at h
      simp only [Option.some.injEq, Prod.mk.injEq] at h
      obtain ⟨_, ⟨c0, i2, hi0, hc0d⟩, _, _⟩ := scanIntP_parts hip
      exact ⟨c0, i2 ++ f ++ e, by rw [← h.1, hi0]; simp, Or.inr hc0d⟩

theorem stringify_head {v : Json} (hv : WFj v) :
    ∃ c0 t0, stringifyVal v = c0 :: t0 ∧ jsonWs c0 = false ∧ ¬ c0 = ']' := by
  cases v with
  | null => exact ⟨'n', _, rfl, by decide, by decide⟩
  | bool b =>
    cases b with
    | false => exact ⟨'f', _, rfl, by decide, by decide⟩
    | true => exact ⟨'t', _, rfl, by decide, by decide⟩
  | num lex =>
    have hWF := WFj_num_elim hv
    have h0 : scanNumLex (lex ++ []) = some (lex, []) := hWF [] numSafe_nil
    rw [List.append_nil] at h0
    obtain ⟨c0, t0, hlex, hc0⟩ := scanNumLex_head h0
    refine ⟨c0, t0, by rw [hlex]; rfl, ?_, ?_⟩
    · rcases hc0 with rfl | hd
      · decide
      · exact digit_not_ws hd
    · rcases hc0 with rfl | hd
      · decide
      · exact digit_ne hd (by decide)
  | str s => exact ⟨'"', _, rfl, by decide, by decide⟩
  | arr l =>
    cases l with
    | nil => exact ⟨'[', _, rfl, by decide, by decide⟩
    | cons h t => exact ⟨'[', _, rfl, by decide, by decide⟩
  | obj o =>
    cases o with
    | nil => exact ⟨lbraceC, _, rfl, by decide, by decide⟩
    | cons k v t => exact ⟨lbraceC, _, rfl, by decide, by decide⟩

theorem parseStrBody_escStr (rest : List Char) :
    ∀ (s acc : List Char),
      parseStrBody acc (escStr s ++ '"' :: rest) = .ok (acc.reverse ++ s, rest)
  | [], acc => by
    rw [escStr, List.nil_append, parseStrBody.eq_def]
    simp
  | c :: s2, acc => by
    have ih := parseStrBody_escStr rest s2
    rw [escStr, escChar]
    by_cases h1 : c = '"'
    · subst h1
      rw [if_pos rfl]
      simp only [List.cons_append, List.singleton_append]
      rw [parseStrBody.eq_def]
      simp [bslashC, ih]
    · rw [if_neg h1]
      by_cases h2 : c = bslashC
      · subst h2
        rw [if_pos rfl]
        simp only [List.cons_append, List.singleton_append]
        rw [parseStrBody.eq_def]
        simp [bslashC, ih]
      · rw [if_neg h2]
        by_cases h3 : c = Char.ofNat 8
        · subst h3
          rw [if_pos rfl]
          simp only [List.cons_append, List.singleton_append]
          rw [parseStrBody.eq_def]
          simp [bslashC, ih]
        · rw [if_neg h3]
          by_cases h4 : c = '\t'
          · subst h4
            rw [if_pos rfl]
            simp only [List.cons_append, List.singleton_append]
            rw [parseStrBody.eq_def]
            simp [bslashC, ih]
          · rw [if_neg h4]
            by_cases h5 : c = '\n'
            · subst h5
              rw [if_pos rfl]
              simp only [List.cons_append, List.singleton_append]
              rw [parseStrBody.eq_def]
              simp [bslashC, ih]
            · rw [if_neg h5]
              by_cases h6 : c = Char.ofNat 12
              · subst h6
                rw [if_pos rfl]
                simp only [List.cons_append, List.singleton_append]
                rw [parseStrBody.eq_def]
                simp [bslashC, ih]
              · rw [if_neg h6]
                by_cases h7 : c = '\r'
                · subst h7
                  rw [if_pos rfl]
                  simp only [List.cons_append, List.singleton_append]
                  rw [parseStrBody.eq_def]
                  simp [bslashC, ih]
                · rw [if_neg h7]
                  by_cases h8 : c.toNat < 32
                  · rw [if_pos h8]
                    have hhi : c.toNat / 16 < 16 := by omega
                    have hlo : c.toNat % 16 < 16 := by omega
                    simp only [List.cons_append, List.nil_append]
                    rw [parseStrBody.eq_def]
                    simp only [bslashC, reduceIte, hexVal_hexDig hhi, hexVal_hexDig hlo,
                      show hexVal '0' = some 0 from by decide]
                    rw [show 0 * 4096 + 0 * 256 + c.toNat / 16 * 16 + c.toNat % 16 =
                      c.toNat from by omega, Char.ofNat_toNat, ih]
                    simp
                  · rw [if_neg h8]
                    simp only [List.cons_append, List.nil_append]
                    rw [parseStrBody.eq_def]
                    simp only [if_neg h1, if_neg h2, if_neg (by omega : ¬ c.toNat < 32)]
                    rw [ih]
                    simp

theorem not_numCont {c : Char} (h1 : c.isDigit = false) (h2 : ¬c = '.') (h3 : ¬c = 'e')
    (h4 : ¬c = 'E') (h5 : ¬c = '+') (h6 : ¬c = '-') : ¬ numCont c := by
  rintro (hh | hh | hh | hh | hh | hh)
  exacts [absurd hh (by simp [h1]), h2 hh, h3 hh, h4 hh, h5 hh, h6 hh]

theorem numSafe_arrTail (t : JArr) (rest : List Char) :
    numSafe (stringifyArrTail t ++ rest) := by
  cases t with
  | nil =>
    simp only [stringifyArrTail, List.cons_append, List.nil_append]
    exact numSafe_cons (not_numCont (by decide) (by decide) (by decide) (by decide)
      (by decide) (by decide)) _
  | cons h2 t2 =>
    simp only [stringifyArrTail, List.cons_append]
    exact numSafe_cons (not_numCont (by decide) (by decide) (by decide) (by decide)
      (by decide) (by decide)) _

theorem numSafe_objTail (t : JObj) (rest : List Char) :
    numSafe (stringifyObjTail t ++ rest) := by
  cases t with
  | nil =>
    simp only [stringifyObjTail, List.cons_append, List.nil_append]
    exact numSafe_cons (not_numCont (by decide) (by decide) (by decide) (by decide)
      (by decide) (by decide)) _
  | cons k2 v2 t2 =>
    simp only [stringifyObjTail, List.cons_append]
    exact numSafe_cons (not_numCont (by decide) (by decide) (by decide) (by decide)
      (by decide) (by decide)) _

theorem arrTail_len_pos (t : JArr) : 1 ≤ (stringifyArrTail t).length := by
  cases t <;> simp [stringifyArrTail]

theorem objTail_len_pos (t : JObj) : 1 ≤ (stringifyObjTail t).length := by
  cases t <;> simp [stringifyObjTail]

theorem getF_none_keys {k : List Char} :
    ∀ t : JObj, t.getF k = none → ∀ e ∈ t.toList, ¬ e.1 = k
  | .nil, _, e, he => by simp [JObj.toList] at he
  | .cons k1 v1 t1, h, e, he => by
    by_cases hk : k1 = k
    · simp [JObj.getF, hk] at h
    · simp only [JObj.toList, List.mem_cons] at he
      rcases he with rfl | he
      · exact hk
      · simp only [JObj.getF, if_neg hk] at h
        exact getF_none_keys t1 h e he

theorem insAll_cons_out {k : List Char} {v : Json} :
    ∀ (l : List (List Char × Json)) (p : JObj), (∀ e ∈ l, ¬ e.1 = k) →
      JObj.insAll (.cons k v p) l = .cons k v (JObj.insAll p l) := by
  intro l
  induction l with
  | nil => intro p _; rfl
  | cons e t ih =>
    intro p hl
    rcases e with ⟨k2, v2⟩
    have hk2 : ¬ k2 = k := hl (k2, v2) (by simp)
    simp only [JObj.insAll]
    rw [show (JObj.cons k v p).insF k2 v2 = .cons k v (p.insF k2 v2) from by
      simp only [JObj.insF]
      rw [if_neg (fun h => hk2 h.symm)]]
    exact ih _ (fun e he => hl e (by simp [he]))

theorem insAll_self : ∀ o : JObj, WFO o → JObj.insAll .nil o.toList = o
  | .nil, _ => rfl
  | .cons k v t, ho => by
    obtain ⟨hv, ht, hn⟩ := ho
    simp only [JObj.toList, JObj.insAll]
    rw [show JObj.insF .nil k v = .cons k v .nil from rfl,
      insAll_cons_out _ _ (getF_none_keys t hn), insAll_self t ht]

/-! ### One-step evaluation lemmas for `parseVal` on stringified heads -/

theorem parseVal_lit_null (f : Nat) (rest : List Char) :
    parseVal (f + 1) ('n' :: 'u' :: 'l' :: 'l' :: rest) = .ok (.null, rest) := by
  rw [parseVal.eq_def]
  simp only [skipWs_cons_nws _ (by decide : jsonWs 'n' = false)]
  rw [if_neg (by decide), if_neg (by decide), if_neg (by decide), if_neg (by decide),
    if_neg (by decide), if_true]
  have hd := dropPfx_self ['n', 'u', 'l', 'l'] rest
  simp only [List.cons_append, List.nil_append] at hd
  simp only [hd]

theorem parseVal_lit_true (f : Nat) (rest : List Char) :
    parseVal (f + 1) ('t' :: 'r' :: 'u' :: 'e' :: rest) = .ok (.bool true, rest) := by
  rw [parseVal.eq_def]
  simp only [skipWs_cons_nws _ (by decide : jsonWs 't' = false)]
  rw [if_neg (by decide), if_neg (by decide), if_neg (by decide), if_true]
  have hd := dropPfx_self ['t', 'r', 'u', 'e'] rest
  simp only [List.cons_append, List.nil_append] at hd
  simp only [hd]

theorem parseVal_lit_false (f : Nat) (rest : List Char) :
    parseVal (f + 1) ('f' :: 'a' :: 'l' :: 's' :: 'e' :: rest) = .ok (.bool false, rest) := by
  rw [parseVal.eq_def]
  simp only [skipWs_cons_nws _ (by decide : jsonWs 'f' = false)]
  rw [if_neg (by decide), if_neg (by decide), if_neg (by decide), if_neg (by decide),
    if_true]
  have hd := dropPfx_self ['f', 'a', 'l', 's', 'e'] rest
  simp only [List.cons_append, List.nil_append] at hd
  simp only [hd]

theorem parseVal_str_lit (f : Nat) (s rest : List Char) :
    parseVal (f + 1) ('"' :: (escStr s ++ '"' :: rest)) = .ok (.str s, rest) := by
  rw [parseVal.eq_def]
  simp only [skipWs_cons_nws _ (by decide : jsonWs '"' = false)]
  rw [if_true]
  simp only [parseStrBody_escStr rest s [], List.reverse_nil, List.nil_append]

theorem parseVal_num_lit (f : Nat) {c0 : Char} {t0 rest : List Char}
    (hsc : scanNumLex ((c0 :: t0) ++ rest) = some (c0 :: t0, rest))
    (hc : c0 = '-' ∨ c0.isDigit) :
    parseVal (f + 1) ((c0 :: t0) ++ rest) = .ok (.num (c0 :: t0), rest) := by
  have hws : jsonWs c0 = false := by
    rcases hc with rfl | hd
    · decide
    · exact digit_not_ws hd
  have hno : ∀ x : Char, x.isDigit = false → ¬ x = '-' → ¬ c0 = x := by
    intro x hx hxd
    rcases hc with rfl | hd
    · exact fun he => hxd he.symm
    · exact digit_ne hd hx
  rw [List.cons_append, parseVal.eq_def]
  simp only [skipWs_cons_nws _ hws]
  rw [if_neg (hno _ (by decide) (by decide)), if_neg (hno _ (by decide) (by decide)),
    if_neg (hno _ (by decide) (by decide)), if_neg (hno _ (by decide) (by decide)),
    if_neg (hno _ (by decide) (by decide)), if_neg (hno _ (by decide) (by decide)),
    if_pos hc, ← List.cons_append]
  simp only [hsc]

theorem parseVal_arr_nil (f : Nat) (rest : List Char) :
    parseVal (f + 1) ('[' :: ']' :: rest) = .ok (.arr .nil, rest) := by
  rw [parseVal.eq_def]
  simp only [skipWs_cons_nws _ (by decide : jsonWs '[' = false)]
  rw [if_neg (by decide), if_neg (by decide), if_true]
  simp only [skipWs_cons_nws _ (by decide : jsonWs ']' = false)]
  rw [if_true]

theorem parseVal_arr_cons (f : Nat) {c0 : Char} (X : List Char)
    (hws : jsonWs c0 = false) (hb : ¬ c0 = ']') :
    parseVal (f + 1) ('[' :: (c0 :: X)) = parseElems f (c0 :: X) [] := by
  rw [parseVal.eq_def]
  simp only [skipWs_cons_nws _ (by decide : jsonWs '[' = false)]
  rw [if_neg (by decide), if_neg (by decide), if_true]
  simp only [skipWs_cons_nws _ hws]
  rw [if_neg hb]

theorem parseVal_obj_nil (f : Nat) (rest : List Char) :
    parseVal (f + 1) (lbraceC :: rbraceC :: rest) = .ok (.obj .nil, rest) := by
  rw [parseVal.eq_def]
  simp only [skipWs_cons_nws _ (by decide : jsonWs lbraceC = false)]
  rw [if_neg (by decide), if_true]
  simp only [skipWs_cons_nws _ (by decide : jsonWs rbraceC = false)]
  rw [if_true]

theorem parseVal_obj_cons (f : Nat) (X : List Char) :
    parseVal (f + 1) (lbraceC :: ('"' :: X)) = parseFields f ('"' :: X) .nil := by
  rw [parseVal.eq_def]
  simp only [skipWs_cons_nws _ (by decide : jsonWs lbraceC = false)]
  rw [if_neg (by decide), if_true]
  simp only [skipWs_cons_nws _ (by decide : jsonWs '"' = false)]
  rw [if_neg (by decide)]

theorem WFA_cons_elim {h : Json} {t : JArr} (hw : WFA (.cons h t)) : WFj h ∧ WFA t := hw

theorem WFO_cons_elim {k : List Char} {v : Json} {t : JObj} (hw : WFO (.cons k v t)) :
    WFj v ∧ WFO t ∧ t.getF k = none := hw

mutual

theorem stringifyRT : ∀ (v : Json), WFj v → ∀ (rest : List Char) (f : Nat),
    2 * (stringifyVal v).length + 2 ≤ f → numSafe rest →
    parseVal f (stringifyVal v ++ rest) = .ok (v, rest)
  | .null, _, rest, f, hf, _ => by
    obtain ⟨f2, rfl⟩ : ∃ f2, f = f2 + 1 := ⟨f - 1, by omega⟩
    simp only [stringifyVal, List.cons_append, List.nil_append]
    exact parseVal_lit_null f2 rest
  | .bool true, _, rest, f, hf, _ => by
    obtain ⟨f2, rfl⟩ : ∃ f2, f = f2 + 1 := ⟨f - 1, by omega⟩
    simp only [stringifyVal, List.cons_append, List.nil_append]
    exact parseVal_lit_true f2 rest
  | .bool false, _, rest, f, hf, _ => by
    obtain ⟨f2, rfl⟩ : ∃ f2, f = f2 + 1 := ⟨f - 1, by omega⟩
    simp only [stringifyVal, List.cons_append, List.nil_append]
    exact parseVal_lit_false f2 rest
  | .num lex, hv, rest, f, hf, hrest => by
    obtain ⟨f2, rfl⟩ : ∃ f2, f = f2 + 1 := ⟨f - 1, by omega⟩
    have hWF := WFj_num_elim hv
    have hsc := hWF rest hrest
    obtain ⟨c0, t0, hlex, hc0⟩ := scanNumLex_head
      (show scanNumLex lex = some (lex, []) by
        simpa using hWF [] numSafe_nil)
    subst hlex
    simp only [stringifyVal]
    exact parseVal_num_lit f2 hsc hc0
  | .str s, _, rest, f, hf, _ => by
    obtain ⟨f2, rfl⟩ : ∃ f2, f = f2 + 1 := ⟨f - 1, by omega⟩
    simp only [stringifyVal, strLitOf, List.cons_append, List.append_assoc,
      List.singleton_append, List.nil_append]
    exact parseVal_str_lit f2 s rest
  | .arr .nil, _, rest, f, hf, _ => by
    obtain ⟨f2, rfl⟩ : ∃ f2, f = f2 + 1 := ⟨f - 1, by omega⟩
    simp only [stringifyVal, List.cons_append, List.nil_append]
    exact parseVal_arr_nil f2 rest
  | .arr (.cons h t), hv, rest, f, hf, hrest => by
    obtain ⟨f2, rfl⟩ : ∃ f2, f = f2 + 1 := ⟨f - 1, by omega⟩
    obtain ⟨hh, ht2⟩ := WFA_cons_elim (WFj_arr_elim hv)
    obtain ⟨c0, t0, hS, hws, hb⟩ := stringify_head hh
    have hlen : (stringifyVal (.arr (.cons h t))).length =
        1 + (stringifyVal h).length + (stringifyArrTail t).length := by
      simp [stringifyVal]
      omega
    have hbound : 2 * ((stringifyVal h).length + (stringifyArrTail t).length) + 2 ≤ f2 := by
      omega
    have hrta := stringifyRTA h t hh ht2 [] rest f2 hbound hrest
    simp only [stringifyVal, List.cons_append, List.append_assoc]
    rw [hS, List.cons_append, parseVal_arr_cons f2 _ hws hb, ← List.cons_append, ← hS,
      hrta]
    simp only [List.nil_append, JArr.ofList, ofList_toList]
  | .obj .nil, _, rest, f, hf, _ => by
    obtain ⟨f2, rfl⟩ : ∃ f2, f = f2 + 1 := ⟨f - 1, by omega⟩
    simp only [stringifyVal, List.cons_append, List.nil_append]
    exact parseVal_obj_nil f2 rest
  | .obj (.cons k v0 t), hv, rest, f, hf, hrest => by
    obtain ⟨f2, rfl⟩ : ∃ f2, f = f2 + 1 := ⟨f - 1, by omega⟩
    have hO := WFj_obj_elim hv
    obtain ⟨hv0, ht0, hn⟩ := WFO_cons_elim hO
    have hlen : (stringifyVal (.obj (.cons k v0 t))).length =
        1 + (strLitOf k).length + 1 + (stringifyVal v0).length +
          (stringifyObjTail t).length := by
      simp [stringifyVal]
      omega
    have hbound : 2 * ((strLitOf k).length + 1 + (stringifyVal v0).length +
        (stringifyObjTail t).length) + 2 ≤ f2 := by
      omega
    have hrto := stringifyRTO k v0 t hv0 ht0 .nil rest f2 hbound hrest
    simp only [strLitOf, List.cons_append, List.append_assoc, List.singleton_append,
      List.nil_append] at hrto
    simp only [stringifyVal, strLitOf, List.cons_append, List.append_assoc,
      List.singleton_append, List.nil_append]
    rw [parseVal_obj_cons f2 _, hrto]
    have hself := insAll_self _ hO
    simp only [JObj.toList] at hself
    rw [hself]
termination_by v => sizeOf v

theorem stringifyRTA : ∀ (h : Json) (t : JArr), WFj h → WFA t →
    ∀ (acc : List Json) (rest : List Char) (f : Nat),
    2 * ((stringifyVal h).length + (stringifyArrTail t).length) + 2 ≤ f →
    numSafe rest →
    parseElems f (stringifyVal h ++ (stringifyArrTail t ++ rest)) acc =
      .ok (.arr (JArr.ofList (acc ++ h :: t.toList)), rest)
  | h, t, hh, ht, acc, rest, f, hf, hrest => by
    obtain ⟨f2, rfl⟩ : ∃ f2, f = f2 + 1 := ⟨f - 1, by omega⟩
    have hTpos := arrTail_len_pos t
    have hbound : 2 * (stringifyVal h).length + 2 ≤ f2 := by omega
    have hpv := stringifyRT h hh (stringifyArrTail t ++ rest) f2 hbound
      (numSafe_arrTail t rest)
    rw [parseElems.eq_def]
    simp only [hpv]
    cases t with
    | nil =>
      simp only [stringifyArrTail, List.cons_append, List.nil_append]
      simp only [skipWs_cons_nws _ (by decide : jsonWs ']' = false)]
      rw [if_neg (by decide : ¬ ']' = ','), if_true]
      simp [JArr.toList]
    | cons h2 t2 =>
      obtain ⟨hh2, ht2⟩ := WFA_cons_elim ht
      have hlen : (stringifyArrTail (JArr.cons h2 t2)).length =
          1 + (stringifyVal h2).length + (stringifyArrTail t2).length := by
        simp [stringifyArrTail]
        omega
      have hbound2 : 2 * ((stringifyVal h2).length + (stringifyArrTail t2).length) + 2
          ≤ f2 := by omega
      have hrec := stringifyRTA h2 t2 hh2 ht2 (acc ++ [h]) rest f2 hbound2 hrest
      simp only [stringifyArrTail, List.cons_append, List.append_assoc]
      simp only [skipWs_cons_nws _ (by decide : jsonWs ',' = false)]
      rw [if_true, hrec]
      simp [JArr.toList]
termination_by h t => 1 + sizeOf h + sizeOf t

theorem stringifyRTO : ∀ (k : List Char) (v : Json) (t : JObj), WFj v → WFO t →
    ∀ (acc : JObj) (rest : List Char) (f : Nat),
    2 * ((strLitOf k).length + 1 + (stringifyVal v).length +
      (stringifyObjTail t).length) + 2 ≤ f →
    numSafe rest →
    parseFields f (strLitOf k ++ (':' :: (stringifyVal v ++ (stringifyObjTail t ++ rest))))
      acc = .ok (.obj (JObj.insAll acc ((k, v) :: t.toList)), rest)
  | k, v, t, hv, ht, acc, rest, f, hf, hrest => by
    obtain ⟨f2, rfl⟩ : ∃ f2, f = f2 + 1 := ⟨f - 1, by omega⟩
    have hOpos := objTail_len_pos t
    have hbound : 2 * (stringifyVal v).length + 2 ≤ f2 := by omega
    have hpv := stringifyRT v hv (stringifyObjTail t ++ rest) f2 hbound
      (numSafe_objTail t rest)
    simp only [strLitOf, List.cons_append, List.append_assoc, List.singleton_append,
      List.nil_append]
    simp only [parseFields]
    rw [if_true]
    have hsb := parseStrBody_escStr
      (':' :: (stringifyVal v ++ (stringifyObjTail t ++ rest))) k []
    simp only [hsb, List.reverse_nil, List.nil_append]
    simp only [skipWs_cons_nws _ (by decide : jsonWs ':' = false)]
    rw [if_true]
    simp only [hpv]
    cases t with
    | nil =>
      simp only [stringifyObjTail, List.cons_append, List.nil_append]
      simp only [skipWs_cons_nws _ (by decide : jsonWs rbraceC = false)]
      rw [if_neg (by decide : ¬ rbraceC = ','), if_true]
      simp [JObj.toList, JObj.insAll]
    | cons k2 v2 t2 =>
      obtain ⟨hv2, ht2, hn2⟩ := WFO_cons_elim ht
      have hlen : (stringifyObjTail (JObj.cons k2 v2 t2)).length =
          1 + (strLitOf k2).length + 1 + (stringifyVal v2).length +
            (stringifyObjTail t2).length := by
        simp [stringifyObjTail]
        omega
      have hbound2 : 2 * ((strLitOf k2).length + 1 + (stringifyVal v2).length +
          (stringifyObjTail t2).length) + 2 ≤ f2 := by omega
      have hrec := stringifyRTO k2 v2 t2 hv2 ht2 (acc.insF k v) rest f2 hbound2 hrest
      simp only [strLitOf, List.cons_append, List.append_assoc, List.singleton_append,
        List.nil_append] at hrec
      simp only [stringifyObjTail, strLitOf, List.cons_append, List.append_assoc,
        List.singleton_append, List.nil_append]
      simp only [skipWs_cons_nws _ (by decide : jsonWs ',' = false)]
      rw [if_true]
      rw [skipWs_cons_nws _ (by decide : jsonWs '"' = false), hrec]
      simp [JObj.toList, JObj.insAll]
termination_by k v t => 1 + sizeOf v + sizeOf t

end

theorem jsonParse_stringify {v : Json} (hv : WFj v) :
    jsonParse (stringifyVal v) = .ok v := by
  unfold jsonParse
  have h := stringifyRT v hv [] (parseFuel (stringifyVal v))
    (by simp [parseFuel]) numSafe_nil
  rw [List.append_nil] at h
  rw [h]
  rfl

theorem parse_ok_head {f : Nat} {cs : List Char} {v : Json} {r : List Char}
    (h : parseVal f cs = .ok (v, r)) :
    ∃ c rest, skipWs cs = c :: rest ∧ ¬ c = ']' := by
  match f with
  | 0 => exact absurd h (by simp [parseVal])
  | n + 1 =>
    rw [parseVal.eq_def] at h
    rcases hsw : skipWs cs with _ | ⟨c, rest⟩
    · simp only [hsw] at h; cases h
    simp only [hsw] at h
    refine ⟨c, rest, rfl, ?_⟩
    rintro rfl
    rw [if_neg (by decide), if_neg (by decide), if_neg (by decide), if_neg (by decide),
      if_neg (by decide), if_neg (by decide), if_neg (by decide)] at h
    cases h

theorem jsonParse_wrap {cs : List Char} {v : Json} (h : jsonParse cs = .ok v) :
    jsonParse ('[' :: cs ++ [']']) = .ok (.arr (.cons v .nil)) := by
  unfold jsonParse at h
  rcases hpv : parseVal (parseFuel cs) cs with e | ⟨v0, r⟩ <;> rw [hpv] at h
  · cases e <;> simp at h
  rcases hsw : skipWs r with _ | ⟨c, r2⟩ <;> simp only [hsw] at h
  case cons => cases h
  cases h
  obtain ⟨c0, rest0, hhead, hc0⟩ := parse_ok_head hpv
  have hext := (parseExt (parseFuel cs)).1 hpv 2
  unfold jsonParse
  have hfw : parseFuel ('[' :: cs ++ [']']) = (parseFuel cs + 3) + 1 := by
    simp [parseFuel]
    omega
  rw [hfw, parseVal.eq_def]
  simp only [List.cons_append]
  simp only [skipWs_cons_nws _ (by decide : jsonWs '[' = false)]
  rw [if_neg (by decide), if_neg (by decide), if_true]
  have hsw2 : skipWs (cs ++ [']']) = c0 :: (rest0 ++ [']']) :=
    skipWs_append_cons [']'] hhead
  simp only [hsw2]
  rw [if_neg hc0]
  rw [show parseFuel cs + 3 = (parseFuel cs + 2) + 1 from rfl, parseElems.eq_def]
  have hpv2 : parseVal (parseFuel cs + 2) (c0 :: (rest0 ++ [']'])) =
      .ok (v, r ++ [']']) := by
    rw [show c0 :: (rest0 ++ [']']) = skipWs (cs ++ [']']) from hsw2.symm, parseVal_skipWs]
    exact hext
  simp only [hpv2]
  rw [skipWs_append_empty [']'] hsw]
  simp only [skipWs_cons_nws _ (by decide : jsonWs ']' = false)]
  rw [if_neg (by decide : ¬ ']' = ','), if_true]
  simp [JArr.ofList, skipWs]

/-! ### Totality of the repair engine -/

theorem emergency_step_WF (acc : List Json) (fb : List Char)
    (hacc : ∀ q ∈ acc, WFj q) :
    ∀ q ∈ (match jsonParse fb with
      | .ok q =>
        if q.truthy ∧ jsTruthy (q.getF ['q', 'u', 'e', 's', 't', 'i', 'o', 'n']) then
          acc ++ [q]
        else acc
      | .error _ => acc), WFj q := by
  rcases hp : jsonParse fb with e | q0
  · exact hacc
  · simp only
    split
    · intro q hq
      rcases List.mem_append.mp hq with hq | hq
      · exact hacc q hq
      · simp only [List.mem_singleton] at hq
        exact hq ▸ jsonParse_WF hp
    · exact hacc

theorem emergencyStep_arr (cleaned : List Char) :
    ∃ es, jsonParse (emergencyStep cleaned) = .ok (.arr es) := by
  have hWF : ∀ q ∈ (globalMatches reQBlock cleaned).foldl
      (fun acc b =>
        let fb := if b.head? = some lbraceC then b else lbraceC :: b
        let fb := if endsWithCh fb rbraceC then fb else fb ++ [rbraceC]
        let fb := replaceAll rePropFix (fun _ g => g.g1 ++ '"' :: g.g2 ++ '"' :: g.g3) fb
        match jsonParse fb with
        | .ok q =>
          if q.truthy ∧ jsTruthy (q.getF ['q', 'u', 'e', 's', 't', 'i', 'o', 'n']) then
            acc ++ [q]
          else acc
        | .error _ => acc) ([] : List Json), WFj q :=
    foldl_preserve _ _ (fun acc b hacc => emergency_step_WF acc _ hacc) _ _ (by simp)
  unfold emergencyStep
  dsimp only
  split
  · exact ⟨_, jsonParse_stringify (WFj_arr (WFA_ofList hWF))⟩
  · exact ⟨.nil, rfl⟩

theorem catchStep_arr (cleaned : List Char) (e : RepairErr) :
    ∃ es, jsonParse (catchStep cleaned e) = .ok (.arr es) := by
  match e with
  | .nullAccess =>
    rw [show catchStep cleaned .nullAccess = emergencyStep cleaned from rfl]
    exact emergencyStep_arr cleaned
  | .parseErr .eof =>
    rw [show catchStep cleaned (.parseErr .eof) = emergencyStep cleaned from rfl]
    exact emergencyStep_arr cleaned
  | .parseErr (.atPos p) =>
    unfold catchStep
    dsimp only
    split
    · rcases hp : jsonParse (cleaned.take p ++ cleaned.drop (p + 1)) with e2 | v
      · simp only [hp]
        exact emergencyStep_arr _
      · match v with
        | .arr a =>
          simp only [hp]
          exact ⟨a, rfl⟩
        | .null =>
          simp only [hp]
          exact emergencyStep_arr _
        | .bool b =>
          simp only [hp]
          exact emergencyStep_arr _
        | .num lex =>
          simp only [hp]
          exact emergencyStep_arr _
        | .str s =>
          simp only [hp]
          exact emergencyStep_arr _
        | .obj fs =>
          simp only [hp]
          exact emergencyStep_arr _
    · exact emergencyStep_arr cleaned

theorem validateStep_arr (cleaned : List Char) :
    ∃ es, jsonParse (validateStep cleaned) = .ok (.arr es) := by
  unfold validateStep
  rcases hp : jsonParse cleaned with e | v
  · simp only [hp]
    exact catchStep_arr _ _
  · simp only [hp]
    match v with
    | .arr a => exact ⟨a, hp⟩
    | .null => exact catchStep_arr _ _
    | .bool b => exact ⟨.nil, rfl⟩
    | .num lex => exact ⟨.nil, rfl⟩
    | .str s => exact ⟨.nil, rfl⟩
    | .obj fs =>
      have hqWFo : WFO fs := WFj_obj_elim (jsonParse_WF hp)
      rcases hq : fs.getF ['q', 'u', 'i', 'z'] with _ | q
      · simp only [hq]
        exact ⟨_, jsonParse_wrap hp⟩
      · simp only [hq]
        split
        · rename_i hcond
          have hqWF : WFj q := getF_WF fs hqWFo hq
          match q, hcond with
          | .arr ql, _ => exact ⟨ql, jsonParse_stringify hqWF⟩
          | .null, hcond => exact absurd hcond.2 (by simp [Json.isArr])
          | .bool b, hcond => exact absurd hcond.2 (by simp [Json.isArr])
          | .num lex, hcond => exact absurd hcond.2 (by simp [Json.isArr])
          | .str s, hcond => exact absurd hcond.2 (by simp [Json.isArr])
          | .obj o, hcond => exact absurd hcond.2 (by simp [Json.isArr])
        · exact ⟨_, jsonParse_wrap hp⟩

theorem repair_returns_array (jr : String → Except Unit String) (x : String) :
    ∃ es, jsonParseS (aggressiveJSONRepair jr x) = .ok (.arr es) := by
  unfold aggressiveJSONRepair
  dsimp only
  split
  · exact ⟨.nil, rfl⟩
  · exact validateStep_arr _

/-- Claim C1: the text repair engine is total — for every input string (and
every behaviour of the external jsonrepair library) `aggressiveJSONRepair`
returns a string that `JSON.parse` accepts, and what it parses to is always
a JSON array; in particular the output is parseable or the literal `"[]"`
(the latter being itself parseable), so the caller `parseQuizQuestions`
never raises and always produces an array. -/
theorem repair_total (jr : String → Except Unit String) (x : String) :
    (∃ es, jsonParseS (aggressiveJSONRepair jr x) = .ok (.arr es)) ∧
    (jsonParseS (aggressiveJSONRepair jr x)).toOption.isSome = true := by
  obtain ⟨es, hes⟩ := repair_returns_array jr x
  exact ⟨⟨es, hes⟩, by rw [hes]; rfl⟩

/-- Claim C3 (amended): there is no direct-parse shortcut, and repair is not
the identity on valid-JSON inputs (see the counterexample); what does hold
is that a valid-JSON input is still processed without error and the result
parses as a JSON array. -/
theorem repair_valid_input_parses (jr : String → Except Unit String) (x : String)
    (h : (jsonParseS x).toOption.isSome = true) :
    ∃ es, jsonParseS (aggressiveJSONRepair jr x) = .ok (.arr es) :=
  repair_returns_array jr x

theorem repair_valid_input_parses_witness :
    (jsonParseS "\x7b\"a\":1\x7d").toOption.isSome = true ∧
    ∃ es, jsonParseS (aggressiveJSONRepair jsonrepairModel "\x7b\"a\":1\x7d") =
      .ok (.arr es) :=
  ⟨by decide, repair_valid_input_parses jsonrepairModel "\x7b\"a\":1\x7d" (by decide)⟩

/-- Claim C4 (amended): repair is not idempotent (see the counterexample);
what does hold is that a second application is as total as the first — the
twice-repaired string still parses as a JSON array. -/
theorem repair_iterate_total (jr : String → Except Unit String) (x : String) :
    ∃ es, jsonParseS (aggressiveJSONRepair jr (aggressiveJSONRepair jr x)) =
      .ok (.arr es) :=
  repair_returns_array jr (aggressiveJSONRepair jr x)
